import Mathlib

/-!
Verification of `src/python/organize_imports.py` (import statement organizer
for Java/Kotlin files).  The Python source is shallowly embedded: each Python
function is translated into an executable Lean definition operating on
`String` values (lists of characters, i.e. Unicode code points, which is how
Python compares and slices text).  File contents are modelled as the list of
lines produced by `readlines` (each line keeps its trailing newline), and the
in-place rewrite is modelled by the pure function `transform` returning
`none` when the file is not rewritten.

Modelling notes, applying throughout:
* Python `str.strip()` / whitespace class `\s` is modelled on the six ASCII
  whitespace characters (space, tab, newline, carriage return, vertical tab,
  form feed); the regex class `\w` is modelled as ASCII alphanumerics plus
  underscore.  Import paths and source text exercised by the claims are
  ASCII, where these coincide exactly with Python.
* The two regular expressions of the source are deterministic after the
  standard leftmost/greedy analysis, so they are embedded as explicit
  parsers: `packageMatch` for `PACKAGE_RE` and `importMatch` for `IMPORT_RE`
  (returning the text of capture group 1 and the path of capture group 2).
* Python `sorted` on `(path, line)` pairs is a stable sort by the
  lexicographic tuple order; since that order is total and antisymmetric the
  result is the unique sorted permutation, modelled by `List.insertionSort`.
-/

namespace OrganizeImports

/-- ASCII whitespace as recognized by Python `str.strip` and the regex
class `\s` (restricted to ASCII, see the modelling notes). -/
def isWS (c : Char) : Bool :=
  c == ' ' || c == '\t' || c == '\n' || c == '\x0d' || c == '\x0b' || c == '\x0c'

/-- Characters matched by the regex class `[\w\.]` of `PACKAGE_RE`. -/
def isWordDot (c : Char) : Bool :=
  c.isAlphanum || c == '_' || c == '.'

/-- Characters matched by the regex class `[\w\.\*]` of `IMPORT_RE`
(the import path: alphanumerics, underscore, dots and stars). -/
def isPathChar (c : Char) : Bool :=
  c.isAlphanum || c == '_' || c == '.' || c == '*'

/-- Python `str.strip()` on the underlying character list. -/
def pyStripL (l : List Char) : List Char :=
  ((l.dropWhile isWS).reverse.dropWhile isWS).reverse

/-- Python `str.strip()`. -/
def pyStrip (s : String) : String :=
  ⟨pyStripL s.data⟩

/-- Python `str.rstrip("\n")`: drop all trailing newline characters. -/
def pyRstripNL (s : String) : String :=
  ⟨((s.data.reverse.dropWhile (· == '\n'))).reverse⟩

/-- Python `s.startswith(p)`. -/
def pyStartsWith (s p : String) : Bool :=
  p.data.isPrefixOf s.data

/-- Python `s.endswith(p)`. -/
def pyEndsWith (s p : String) : Bool :=
  p.data.reverse.isPrefixOf s.data.reverse

/-- Drop the literal character sequence `pre` from the front of `l`
(`none` if `l` does not start with `pre`).  Used to match the literal
parts of the two regular expressions. -/
def dropLit : List Char → List Char → Option (List Char)
  | [], s => some s
  | _ :: _, [] => none
  | c :: cs, d :: ds => if c == d then dropLit cs ds else none

/-- The fixed group priority list `IMPORT_ORDER` of the source
(lines 38-49): `static` first, then the known top-level package
prefixes in their declared order. -/
def IMPORT_ORDER : List String :=
  ["static", "android", "androidx", "com", "net", "org",
   "kotlin", "kotlinx", "java", "javax"]

/-- Model of `PACKAGE_RE.match(line)` succeeding, for `PACKAGE_RE =
^package\s+[\w\.]+;?\s*$` (source line 32), applied to the stripped line:
the literal `package`, at least one whitespace character, a nonempty run
of word/dot characters, an optional semicolon, optional whitespace, end
of string.  The greedy runs are deterministic because the character
classes of adjacent pieces are disjoint. -/
def packageMatch (s : String) : Bool :=
  match dropLit "package".data s.data with
  | none => false
  | some rest =>
    let ws1 := rest.takeWhile isWS
    let r1 := rest.dropWhile isWS
    if ws1.isEmpty then false
    else
      let w := r1.takeWhile isWordDot
      let r2 := r1.dropWhile isWordDot
      if w.isEmpty then false
      else
        let r3 := match r2 with
          | ';' :: t => t
          | t => t
        (r3.dropWhile isWS).isEmpty

/-- Model of `IMPORT_RE.match(line)` for `IMPORT_RE =
^(import\s+static|import)\s+([\w\.\*]+)(;)?` (source line 34), applied to
the stripped line.  Returns `some (g1, path)` where `g1` is the text
captured by group 1 (including the actual whitespace run between
`import` and `static` in the first alternative) and `path` the text of
group 2.  The first alternative is tried first; if any later piece of
the pattern fails the engine falls back to the second alternative,
exactly as a backtracking regex engine does (no other backtracking is
possible since the adjacent character classes are disjoint). -/
def importMatch (s : String) : Option (String × String) :=
  match dropLit "import".data s.data with
  | none => none
  | some rest =>
    let ws1 := rest.takeWhile isWS
    let r1 := rest.dropWhile isWS
    if ws1.isEmpty then none
    else
      let alt1 : Option (String × String) :=
        match dropLit "static".data r1 with
        | none => none
        | some r2 =>
          let ws2 := r2.takeWhile isWS
          let r3 := r2.dropWhile isWS
          if ws2.isEmpty then none
          else
            let path := r3.takeWhile isPathChar
            if path.isEmpty then none
            else some (⟨"import".data ++ ws1 ++ "static".data⟩, ⟨path⟩)
      match alt1 with
      | some res => some res
      | none =>
        let path := r1.takeWhile isPathChar
        if path.isEmpty then none
        else some ("import", ⟨path⟩)

/-- One parsed import record `(is_static, path, rendered_line)`, exactly the
triples appended to `imports` in `process_file` (source line 143). -/
abbrev Rec := Bool × String × String

/-- The accumulator of the scanning loop of `process_file`
(source lines 118-144). -/
structure ScanResult where
  imports : List Rec
  importLines : List Nat
  starImports : List (String × Nat)
  packageIdx : Int
deriving Repr, DecidableEq

/-- The initial accumulator (`imports = []`, `package_idx = -1`). -/
def initScan : ScanResult :=
  ⟨[], [], [], -1⟩

/-- One iteration of the scanning loop of `process_file` (source lines
123-144) on the line at index `idx`: strip the line; skip blank and
`//`-comment lines; record a package declaration index; otherwise try
the import pattern, flag star paths, append the Java semicolon when missing,
and append the record and its line index. -/
def scanStep (isJava : Bool) (st : ScanResult) (idx : Nat) (rawLine : String) : ScanResult :=
  let line := pyStrip rawLine
  if line == "" || pyStartsWith line "//" then st
  else if packageMatch line then { st with packageIdx := (idx : Int) }
  else
    match importMatch line with
    | some (g1, path) =>
      let isStatic := g1 == "import static"
      let st := if path.data.contains '*' then
          { st with starImports := st.starImports ++ [(line, idx + 1)] }
        else st
      let line := if isJava && !(pyEndsWith line ";") then line ++ ";" else line
      { st with imports := st.imports ++ [(isStatic, path, line)],
                importLines := st.importLines ++ [idx] }
    | none => st

/-- The scanning loop from line index `idx` over the remaining lines. -/
def scanFrom (isJava : Bool) (st : ScanResult) (idx : Nat) : List String → ScanResult
  | [] => st
  | l :: ls => scanFrom isJava (scanStep isJava st idx l) (idx + 1) ls

/-- The full scanning loop of `process_file` over the lines of a file. -/
def scanFile (isJava : Bool) (lines : List String) : ScanResult :=
  scanFrom isJava initScan 0 lines

/-- Python `path.split(".")[0]`: the text before the first dot (the whole
string when there is no dot). -/
def topOf (path : String) : String :=
  ⟨path.data.takeWhile (· ≠ '.')⟩

/-- The function `get_import_group(import_path, is_static)` of the source
(lines 65-74).  Note that for an unknown top-level segment it returns the
string `"zzz_other." + import_path`, not a fixed catch-all label, and that
the membership test is against the full `IMPORT_ORDER` list (which contains
`"static"`). -/
def get_import_group (import_path : String) (is_static : Bool) : String :=
  if is_static then "static"
  else
    let top_level := topOf import_path
    if IMPORT_ORDER.contains top_level then top_level
    else "zzz_other." ++ import_path

/-- The group key chosen by the grouping loop inside `sort_imports`
(source lines 80-92): `"static"` for static records, otherwise the first
element of `IMPORT_ORDER` equal to the top-level segment (the `for`/`break`
loop), otherwise the catch-all key `"zzz_other"` (the `for`/`else` branch). -/
def bucketOf (is_static : Bool) (path : String) : String :=
  if is_static then "static"
  else
    match IMPORT_ORDER.find? (fun g => topOf path == g) with
    | some g => g
    | none => "zzz_other"

/-- Appending one record to the `groups` dictionary of `sort_imports`
(adds the `(path, line)` pair at the end of the bucket keyed by
`bucketOf`). -/
def addRec (gs : String → List (String × String)) (r : Rec) :
    String → List (String × String) :=
  fun k => if k = bucketOf r.1 r.2.1 then gs k ++ [(r.2.1, r.2.2)] else gs k

/-- The `groups` dictionary built by the first loop of `sort_imports`
(source lines 79-92), as a total function from keys to bucket contents:
a key not in the dictionary maps to the empty list (the `group in groups
and groups[group]` guard of the emission loop tests exactly nonemptiness). -/
def buildGroups (imports : List Rec) : String → List (String × String) :=
  imports.foldl addRec (fun _ => [])

/-- The strict tuple order Python uses to compare `(path, line)` pairs:
first by path, ties by line, strings compared lexicographically by code
point. -/
def pairRel (a b : String × String) : Prop :=
  a.1 < b.1 ∨ (a.1 = b.1 ∧ a.2 ≤ b.2)

instance pairRel.decidableRel : DecidableRel pairRel := fun a b =>
  decidable_of_iff
    (a.1.toList < b.1.toList ∨ (a.1 = b.1 ∧ ¬ (b.2.toList < a.2.toList)))
    (by
      constructor
      · rintro (h | ⟨h1, h2⟩)
        · exact Or.inl (String.lt_iff_toList_lt.mpr h)
        · exact Or.inr ⟨h1, not_lt.mp (fun hc => h2 (String.lt_iff_toList_lt.mp hc))⟩
      · rintro (h | ⟨h1, h2⟩)
        · exact Or.inl (String.lt_iff_toList_lt.mp h)
        · exact Or.inr ⟨h1, fun hc =>
            absurd (String.lt_iff_toList_lt.mpr hc) (not_lt.mpr h2)⟩)

instance pairRel.total : IsTotal (String × String) pairRel := by
  constructor
  intro a b
  rcases lt_trichotomy a.1 b.1 with h | h | h
  · exact Or.inl (Or.inl h)
  · rcases le_total a.2 b.2 with h2 | h2
    · exact Or.inl (Or.inr ⟨h, h2⟩)
    · exact Or.inr (Or.inr ⟨h.symm, h2⟩)
  · exact Or.inr (Or.inl h)

instance pairRel.trans : IsTrans (String × String) pairRel := by
  constructor
  intro a b c hab hbc
  rcases hab with h | ⟨h, h2⟩
  · rcases hbc with h3 | ⟨h3, _⟩
    · exact Or.inl (h.trans h3)
    · exact Or.inl (h3 ▸ h)
  · rcases hbc with h3 | ⟨h3, h4⟩
    · exact Or.inl (h ▸ h3)
    · exact Or.inr ⟨h.trans h3, h2.trans h4⟩

instance pairRel.antisymm : IsAntisymm (String × String) pairRel := by
  constructor
  intro a b hab hba
  rcases hab with h | ⟨h, h2⟩
  · rcases hba with h3 | ⟨h3, _⟩
    · exact absurd (h.trans h3) (lt_irrefl _)
    · exact absurd (h3 ▸ h) (lt_irrefl _)
  · rcases hba with h3 | ⟨h3, h4⟩
    · exact absurd (h ▸ h3) (lt_irrefl _)
    · exact Prod.ext h (le_antisymm h2 h4)

/-- Python `sorted` on a list of `(path, line)` pairs.  `sorted` is a
stable sort under the strict tuple order; because `pairRel` is a total
antisymmetric order the sorted permutation is unique, so any correct
sorting algorithm models it (`List.insertionSort` here). -/
def pySorted (l : List (String × String)) : List (String × String) :=
  List.insertionSort pairRel l

/-- The `while ordered and ordered[-1] == "": ordered.pop()` loop at the
end of `sort_imports` (source lines 104-106): remove trailing empty
strings. -/
def dropTrailingEmpties (l : List String) : List String :=
  (l.reverse.dropWhile (· == "")).reverse

/-- The body of the emission loop of `sort_imports` (source lines 96-99)
for a single group key: skip an empty bucket, otherwise emit the sorted
lines followed by one empty-string separator. -/
def emitStep (gs : String → List (String × String)) (acc : List String)
    (g : String) : List String :=
  if gs g = [] then acc
  else acc ++ (pySorted (gs g)).map (·.2) ++ [""]

/-- The function `sort_imports(imports)` of the source (lines 77-108):
group the records, emit the buckets of `IMPORT_ORDER` in order, then the
`zzz_other` bucket, each nonempty bucket sorted and followed by one blank
separator, and finally strip trailing blanks. -/
def sortImports (imports : List Rec) : List String :=
  let groups := buildGroups imports
  let ordered := IMPORT_ORDER.foldl (emitStep groups) []
  let ordered := emitStep groups ordered "zzz_other"
  dropTrailingEmpties ordered

/-- The loop of `process_file` that walks forward from the line after the
last import (source lines 153-161): stop at the first line that is
non-blank and not a `//` comment; keep every non-blank (comment) line
seen on the way in the preserved buffer.  Returns the preserved buffer
and the index of the first untouched line (`next_content_idx`). -/
def presGo : List String → Nat → List String × Nat
  | [], idx => ([], idx)
  | l :: rest, idx =>
    let cur := pyStrip (pyRstripNL l)
    if cur ≠ "" ∧ ¬ pyStartsWith cur "//" then ([], idx)
    else
      let r := presGo rest (idx + 1)
      (if cur ≠ "" then l :: r.1 else r.1, r.2)

/-- The file transformation of `process_file` (source lines 111-183)
without the I/O: `none` models "no imports found, the file is not
rewritten" (line 146-147); `some newLines` models the list passed to
`writelines`.  `isJava` is `filepath.endswith(".java")`. -/
def transform (isJava : Bool) (lines : List String) : Option (List String) :=
  let st := scanFile isJava lines
  if st.imports = [] then none
  else
    let first := st.importLines.headD 0
    let last := st.importLines.getLastD 0
    let sorted := sortImports st.imports
    let pres := presGo (lines.drop (last + 1)) (last + 1)
    let preserved := pres.1 ++ ["\n"]
    if st.packageIdx ≠ -1 then
      some (lines.take (st.packageIdx.toNat + 1) ++ ["\n"]
            ++ sorted.map (· ++ "\n") ++ preserved ++ lines.drop pres.2)
    else
      some (lines.take first ++ sorted.map (· ++ "\n") ++ preserved
            ++ lines.drop pres.2)

/-- Python `readlines` on the character list: split after every newline
character; a final fragment without a newline becomes the last line. -/
def readlinesGo (cur : List Char) : List Char → List (List Char)
  | [] => if cur = [] then [] else [cur.reverse]
  | c :: rest =>
    if c = '\n' then (c :: cur).reverse :: readlinesGo [] rest
    else readlinesGo (c :: cur) rest

/-- Python `f.readlines()` of a file with the given text content. -/
def pyReadlines (content : String) : List String :=
  (readlinesGo [] content.data).map (⟨·⟩)

/-- One run of `process_file` on a file with the given text content:
read the lines, transform, and write the concatenation back (the content
is unchanged when no imports were found). -/
def runContent (isJava : Bool) (content : String) : String :=
  match transform isJava (pyReadlines content) with
  | none => content
  | some out => String.join out

/-! ### Per-line characterization of the scanning loop

The scanning loop treats each line independently, so its result is
characterized by a per-line classification.  `classifyLine` factors the
body of `scanStep`; the `seg*` functions compute the contribution of a
sequence of lines to each accumulator field. -/

/-- What the scanning loop does with one raw line. -/
inductive LK where
  | skip : LK
  | pkg : LK
  | imp (r : Rec) (stripped : String) (star : Bool) : LK
  | other : LK
deriving DecidableEq, Repr

/-- Classification of a raw line by the scanning loop of `process_file`:
blank/comment lines are skipped, package lines recorded, import lines
yield a record (with the Java semicolon appended to the rendered line when
missing), anything else is ignored. -/
def classifyLine (isJava : Bool) (raw : String) : LK :=
  let line := pyStrip raw
  if line == "" || pyStartsWith line "//" then .skip
  else if packageMatch line then .pkg
  else
    match importMatch line with
    | some (g1, path) =>
      let isStatic := g1 == "import static"
      let rendered := if isJava && !(pyEndsWith line ";") then line ++ ";" else line
      .imp (isStatic, path, rendered) line (path.data.contains '*')
    | none => .other

theorem scanStep_classify (isJava : Bool) (st : ScanResult) (idx : Nat) (raw : String) :
    scanStep isJava st idx raw =
      match classifyLine isJava raw with
      | .skip => st
      | .pkg => { st with packageIdx := (idx : Int) }
      | .imp r stripped star =>
        { st with imports := st.imports ++ [r],
                  importLines := st.importLines ++ [idx],
                  starImports := st.starImports ++
                    (if star then [(stripped, idx + 1)] else []) }
      | .other => st := by
  unfold scanStep classifyLine
  by_cases h1 : (pyStrip raw == "" || pyStartsWith (pyStrip raw) "//") = true
  · simp [h1]
  · simp only [Bool.not_eq_true] at h1
    by_cases h2 : packageMatch (pyStrip raw) = true
    · simp [h1, h2]
    · cases h3 : importMatch (pyStrip raw) with
      | none => simp [h1, h2, h3]
      | some gp =>
        cases gp with
        | mk g1 path =>
          by_cases h4 : '*' ∈ path.data
          · simp [h1, h2, h3, h4]
          · simp [h1, h2, h3, h4]

/-- The `(line index, record)` pairs contributed by a sequence of lines
starting at line index `idx`: `imports` and `import_lines` are appended in
lockstep, so they are the two projections of this list. -/
def segPairs (isJava : Bool) (idx : Nat) : List String → List (Nat × Rec)
  | [] => []
  | raw :: rest =>
    (match classifyLine isJava raw with
     | .imp r _ _ => [(idx, r)]
     | _ => []) ++ segPairs isJava (idx + 1) rest

/-- The star-import entries contributed by a sequence of lines starting
at line index `idx`. -/
def segStars (isJava : Bool) (idx : Nat) : List String → List (String × Nat)
  | [] => []
  | raw :: rest =>
    (match classifyLine isJava raw with
     | .imp _ stripped true => [(stripped, idx + 1)]
     | _ => []) ++ segStars isJava (idx + 1) rest

/-- The index of the last package-declaration line in a sequence of lines
starting at line index `idx` (`none` when there is none). -/
def segPkg (isJava : Bool) (idx : Nat) : List String → Option Nat
  | [] => none
  | raw :: rest =>
    match segPkg isJava (idx + 1) rest with
    | some k => some k
    | none => if classifyLine isJava raw = .pkg then some idx else none

theorem scanFrom_eq (isJava : Bool) (st : ScanResult) (idx : Nat) (ls : List String) :
    scanFrom isJava st idx ls =
      { imports := st.imports ++ (segPairs isJava idx ls).map (·.2),
        importLines := st.importLines ++ (segPairs isJava idx ls).map (·.1),
        starImports := st.starImports ++ segStars isJava idx ls,
        packageIdx := match segPkg isJava idx ls with
                      | some k => (k : Int)
                      | none => st.packageIdx } := by
  induction ls generalizing st idx with
  | nil => simp [scanFrom, segPairs, segStars, segPkg]
  | cons raw rest ih =>
    rw [scanFrom, ih, scanStep_classify]
    cases h : classifyLine isJava raw with
    | skip =>
      simp only [segPairs, segStars, segPkg, h]
      cases hrest : segPkg isJava (idx + 1) rest <;> simp [hrest]
    | pkg =>
      simp only [segPairs, segStars, segPkg, h]
      cases hrest : segPkg isJava (idx + 1) rest <;> simp [hrest]
    | other =>
      simp only [segPairs, segStars, segPkg, h]
      cases hrest : segPkg isJava (idx + 1) rest <;> simp [hrest]
    | imp r stripped star =>
      simp only [segPairs, segStars, segPkg, h]
      cases hrest : segPkg isJava (idx + 1) rest <;>
        cases star <;> simp [hrest]

theorem scanFile_eq (isJava : Bool) (lines : List String) :
    scanFile isJava lines =
      { imports := (segPairs isJava 0 lines).map (·.2),
        importLines := (segPairs isJava 0 lines).map (·.1),
        starImports := segStars isJava 0 lines,
        packageIdx := match segPkg isJava 0 lines with
                      | some k => (k : Int)
                      | none => -1 } := by
  rw [scanFile, scanFrom_eq]
  rfl

theorem segPairs_append (isJava : Bool) (idx : Nat) (a b : List String) :
    segPairs isJava idx (a ++ b) =
      segPairs isJava idx a ++ segPairs isJava (idx + a.length) b := by
  induction a generalizing idx with
  | nil => simp [segPairs]
  | cons raw rest ih =>
    have harith : idx + 1 + rest.length = idx + (rest.length + 1) := by omega
    simp only [List.cons_append, segPairs, List.length_cons, List.append_eq]
    rw [ih (idx + 1), harith, List.append_assoc]

theorem segStars_append (isJava : Bool) (idx : Nat) (a b : List String) :
    segStars isJava idx (a ++ b) =
      segStars isJava idx a ++ segStars isJava (idx + a.length) b := by
  induction a generalizing idx with
  | nil => simp [segStars]
  | cons raw rest ih =>
    have harith : idx + 1 + rest.length = idx + (rest.length + 1) := by omega
    simp only [List.cons_append, segStars, List.length_cons, List.append_eq]
    rw [ih (idx + 1), harith, List.append_assoc]

theorem segPkg_append (isJava : Bool) (idx : Nat) (a b : List String) :
    segPkg isJava idx (a ++ b) =
      match segPkg isJava (idx + a.length) b with
      | some k => some k
      | none => segPkg isJava idx a := by
  induction a generalizing idx with
  | nil => cases h : segPkg isJava idx b <;> simp [segPkg, h]
  | cons raw rest ih =>
    have harith : idx + 1 + rest.length = idx + (rest.length + 1) := by omega
    simp only [List.cons_append, segPkg, List.length_cons, List.append_eq]
    rw [ih (idx + 1), harith]
    cases h : segPkg isJava (idx + (rest.length + 1)) b <;>
      cases h2 : segPkg isJava (idx + 1) rest <;> simp [h, h2]

theorem segPairs_bounds (isJava : Bool) (idx : Nat) (ls : List String) :
    ∀ p ∈ segPairs isJava idx ls, idx ≤ p.1 ∧ p.1 < idx + ls.length := by
  induction ls generalizing idx with
  | nil => simp [segPairs]
  | cons raw rest ih =>
    intro p hp
    simp only [segPairs, List.mem_append] at hp
    rcases hp with hp | hp
    · cases h : classifyLine isJava raw <;> simp [h] at hp
      case imp r stripped star =>
        subst hp
        simp only [List.length_cons]
        omega
    · have := ih (idx + 1) p hp
      simp only [List.length_cons]
      omega

theorem segPkg_bounds (isJava : Bool) (idx : Nat) (ls : List String) (k : Nat)
    (h : segPkg isJava idx ls = some k) : idx ≤ k ∧ k < idx + ls.length := by
  induction ls generalizing idx with
  | nil => simp [segPkg] at h
  | cons raw rest ih =>
    simp only [segPkg] at h
    cases h2 : segPkg isJava (idx + 1) rest with
    | some k2 =>
      rw [h2] at h
      cases h
      have := ih (idx + 1) h2
      simp only [List.length_cons]
      omega
    | none =>
      rw [h2] at h
      by_cases h3 : classifyLine isJava raw = LK.pkg
      · simp [h3] at h
        subst h
        simp only [List.length_cons]
        omega
      · simp [h3] at h

/-! ### Structure of the output of `sort_imports` -/

/-- All group keys in emission order: the keys of the `IMPORT_ORDER`
emission loop followed by the final `zzz_other` step. -/
def groupKeys : List String :=
  IMPORT_ORDER ++ ["zzz_other"]

/-- The priority index of a group key in the emission order. -/
def prio (g : String) : Nat :=
  groupKeys.indexOf g

/-- The sorted rendered lines of one bucket. -/
def groupLines (imports : List Rec) (g : String) : List String :=
  (pySorted (buildGroups imports g)).map (·.2)

/-- The lines one group contributes to the emitted block: nothing for an
empty bucket, the sorted lines plus one blank separator otherwise. -/
def groupSeg (imports : List Rec) (g : String) : List String :=
  if buildGroups imports g = [] then []
  else groupLines imports g ++ [""]

theorem buildGroups_apply (imports : List Rec) (g : String) :
    buildGroups imports g =
      (imports.filter (fun r => bucketOf r.1 r.2.1 == g)).map
        (fun r => (r.2.1, r.2.2)) := by
  have h : ∀ (l : List Rec) (gs : String → List (String × String)),
      l.foldl addRec gs g = gs g ++
        (l.filter (fun r => bucketOf r.1 r.2.1 == g)).map (fun r => (r.2.1, r.2.2)) := by
    intro l
    induction l with
    | nil => intro gs; simp
    | cons r rest ih =>
      intro gs
      simp only [List.foldl_cons, ih, List.filter_cons]
      by_cases hb : bucketOf r.1 r.2.1 = g
      · simp [addRec, hb]

      · have hb2 : (bucketOf r.1 r.2.1 == g) = false := by
          simp [hb]
        have hb3 : ¬ g = bucketOf r.1 r.2.1 := fun h2 => hb h2.symm
        simp [addRec, hb2, hb3]
  exact h imports (fun _ => [])

theorem foldl_emitStep (gs : String → List (String × String)) (ks : List String)
    (acc : List String) :
    ks.foldl (emitStep gs) acc = acc ++
      (ks.map (fun g => if gs g = [] then []
        else (pySorted (gs g)).map (·.2) ++ [""])).flatten := by
  induction ks generalizing acc with
  | nil => simp
  | cons g rest ih =>
    simp only [List.foldl_cons, List.map_cons, List.flatten_cons, ih]
    by_cases h : gs g = []
    · simp [emitStep, h]
    · simp [emitStep, h]

theorem sortImports_structure (imports : List Rec) :
    sortImports imports =
      dropTrailingEmpties ((groupKeys.map (groupSeg imports)).flatten) := by
  show dropTrailingEmpties (emitStep (buildGroups imports)
      (IMPORT_ORDER.foldl (emitStep (buildGroups imports)) []) "zzz_other") = _
  have h : emitStep (buildGroups imports)
      (IMPORT_ORDER.foldl (emitStep (buildGroups imports)) []) "zzz_other"
      = (IMPORT_ORDER ++ ["zzz_other"]).foldl (emitStep (buildGroups imports)) [] := by
    rw [List.foldl_append]
    rfl
  rw [h, foldl_emitStep]
  unfold groupKeys groupSeg groupLines
  simp

theorem groupSeg_eq (imports : List Rec) (g : String) :
    groupSeg imports g = if buildGroups imports g = [] then []
      else groupLines imports g ++ [""] := rfl

/-- Every record lands in a bucket whose key is in `groupKeys`. -/
theorem bucketOf_mem_groupKeys (b : Bool) (p : String) :
    bucketOf b p ∈ groupKeys := by
  unfold bucketOf groupKeys
  by_cases hb : b = true
  · simp [hb, IMPORT_ORDER]
  · simp only [hb, if_false, Bool.not_eq_true] at *
    cases hf : IMPORT_ORDER.find? (fun g => topOf p == g) with
    | some g =>
      simp only [hb, Bool.false_eq_true, if_false, hf]
      exact List.mem_append_left _ (List.mem_of_find?_eq_some hf)
    | none =>
      simp [hb, hf]

theorem groupKeys_nodup : groupKeys.Nodup := by
  decide

/-- Partition permutation: flattening the per-key filtered sublists of a
record list over a duplicate-free key list covering all buckets gives back
a permutation of the list. -/
theorem bucket_partition_perm :
    ∀ (keys : List String) (l : List Rec), keys.Nodup →
      (∀ r ∈ l, bucketOf r.1 r.2.1 ∈ keys) →
      ((keys.map (fun g => l.filter (fun r => bucketOf r.1 r.2.1 == g))).flatten).Perm l := by
  intro keys
  induction keys with
  | nil =>
    intro l _ hcov
    have : l = [] := by
      cases l with
      | nil => rfl
      | cons r t => exact absurd (hcov r (List.mem_cons_self r t)) (List.not_mem_nil _)
    simp [this]
  | cons g ks ih =>
    intro l hnd hcov
    simp only [List.map_cons, List.flatten_cons]
    have hks : ∀ g2 ∈ ks, l.filter (fun r => bucketOf r.1 r.2.1 == g2) =
        (l.filter (fun r => !(bucketOf r.1 r.2.1 == g))).filter
          (fun r => bucketOf r.1 r.2.1 == g2) := by
      intro g2 hg2
      rw [List.filter_filter]
      apply List.filter_congr
      intro r _
      by_cases hb : bucketOf r.1 r.2.1 = g2
      · have hne : g2 ≠ g := by
          intro hEq
          subst hEq
          exact (List.nodup_cons.mp hnd).1 hg2
        have : (bucketOf r.1 r.2.1 == g) = false := by
          simp [hb, hne]
        simp [hb, this, hne]
      · simp [hb]
    have hmapeq : ks.map (fun g2 => l.filter (fun r => bucketOf r.1 r.2.1 == g2)) =
        ks.map (fun g2 => (l.filter (fun r => !(bucketOf r.1 r.2.1 == g))).filter
          (fun r => bucketOf r.1 r.2.1 == g2)) := by
      apply List.map_congr_left
      intro g2 hg2
      exact hks g2 hg2
    rw [hmapeq]
    have hcov2 : ∀ r ∈ l.filter (fun r => !(bucketOf r.1 r.2.1 == g)),
        bucketOf r.1 r.2.1 ∈ ks := by
      intro r hr
      have hm := List.mem_filter.mp hr
      have := hcov r hm.1
      simp only [List.mem_cons] at this
      rcases this with h | h
      · exfalso
        have := hm.2
        simp [h] at this
      · exact h
    have hperm := ih (l.filter (fun r => !(bucketOf r.1 r.2.1 == g)))
      (List.nodup_cons.mp hnd).2 hcov2
    refine List.Perm.trans (List.Perm.append_left _ hperm) ?_
    exact List.filter_append_perm (fun r => bucketOf r.1 r.2.1 == g) l

/-! ### Lemmas about the trailing-blank stripping and blank-free projection -/

theorem dropTrailingEmpties_spec (l : List String) :
    ∃ t, l = dropTrailingEmpties l ++ t ∧ ∀ x ∈ t, x = "" := by
  refine ⟨(l.reverse.takeWhile (· == "")).reverse, ?_, ?_⟩
  · unfold dropTrailingEmpties
    conv_lhs => rw [← l.reverse_reverse]
    rw [← List.reverse_append, ← List.takeWhile_append_dropWhile (· == "") l.reverse]
    simp
  · intro x hx
    have := List.mem_takeWhile_imp (List.mem_reverse.mp hx)
    simpa using this

theorem head?_dropWhile_false {α : Type} (p : α → Bool) (l : List α) (a : α)
    (h : (l.dropWhile p).head? = some a) : p a = false := by
  induction l with
  | nil => simp [List.dropWhile] at h
  | cons b t ih =>
    by_cases hb : p b = true
    · rw [List.dropWhile_cons, if_pos hb] at h
      exact ih h
    · rw [List.dropWhile_cons, if_neg hb] at h
      simp only [List.head?_cons, Option.some.injEq] at h
      subst h
      simpa using hb

theorem dropTrailingEmpties_getLast? (l : List String) :
    (dropTrailingEmpties l).getLast? ≠ some "" := by
  unfold dropTrailingEmpties
  rw [List.getLast?_reverse]
  intro hcon
  have := head?_dropWhile_false (· == "") l.reverse "" hcon
  simp at this

theorem mem_dropTrailingEmpties {l : List String} {x : String}
    (h : x ∈ dropTrailingEmpties l) : x ∈ l := by
  obtain ⟨t, hl, _⟩ := dropTrailingEmpties_spec l
  rw [hl]
  exact List.mem_append_left _ h

theorem filter_dropTrailingEmpties (l : List String) :
    (dropTrailingEmpties l).filter (fun s => s != "") =
      l.filter (fun s => s != "") := by
  obtain ⟨t, hl, ht⟩ := dropTrailingEmpties_spec l
  conv_rhs => rw [hl]
  rw [List.filter_append]
  have : t.filter (fun s => s != "") = [] := by
    rw [List.filter_eq_nil_iff]
    intro a ha
    simp [ht a ha]
  rw [this, List.append_nil]

theorem chain'_dropTrailingEmpties {R : String → String → Prop} {l : List String}
    (h : List.Chain' R l) : List.Chain' R (dropTrailingEmpties l) := by
  obtain ⟨t, hl, _⟩ := dropTrailingEmpties_spec l
  exact h.prefix ⟨t, hl.symm⟩

/-! ### Membership and permutation facts for `sortImports` -/

theorem mem_buildGroups {imports : List Rec} {g : String} {pr : String × String}
    (h : pr ∈ buildGroups imports g) :
    ∃ r ∈ imports, pr = (r.2.1, r.2.2) ∧ bucketOf r.1 r.2.1 = g := by
  rw [buildGroups_apply] at h
  obtain ⟨r, hr, hpr⟩ := List.mem_map.mp h
  have hf := List.mem_filter.mp hr
  exact ⟨r, hf.1, hpr.symm, by simpa using hf.2⟩

theorem mem_groupLines {imports : List Rec} {g : String} {s : String}
    (h : s ∈ groupLines imports g) :
    ∃ r ∈ imports, s = r.2.2 ∧ bucketOf r.1 r.2.1 = g := by
  unfold groupLines at h
  obtain ⟨pr, hpr, hs⟩ := List.mem_map.mp h
  have hmem : pr ∈ buildGroups imports g :=
    (List.perm_insertionSort pairRel _).mem_iff.mp hpr
  obtain ⟨r, hr, hpr2, hb⟩ := mem_buildGroups hmem
  exact ⟨r, hr, by rw [← hs, hpr2], hb⟩

theorem mem_sortImports {imports : List Rec} {s : String}
    (h : s ∈ sortImports imports) :
    s = "" ∨ ∃ r ∈ imports, s = r.2.2 := by
  rw [sortImports_structure] at h
  have h2 := mem_dropTrailingEmpties h
  obtain ⟨seg, hseg, hsmem⟩ := List.mem_flatten.mp h2
  obtain ⟨g, _, hgseg⟩ := List.mem_map.mp hseg
  rw [← hgseg] at hsmem
  unfold groupSeg at hsmem
  by_cases he : buildGroups imports g = []
  · rw [if_pos he] at hsmem
    simp at hsmem
  · rw [if_neg he] at hsmem
    rcases List.mem_append.mp hsmem with hs | hs
    · obtain ⟨r, hr, hs2, _⟩ := mem_groupLines hs
      exact Or.inr ⟨r, hr, hs2⟩
    · simp only [List.mem_singleton] at hs
      exact Or.inl hs

theorem flatten_perm_of_pointwise (ks : List String) (f h : String → List String)
    (hfh : ∀ g ∈ ks, (f g).Perm (h g)) :
    ((ks.map f).flatten).Perm ((ks.map h).flatten) := by
  induction ks with
  | nil => simp
  | cons g rest ih =>
    simp only [List.map_cons, List.flatten_cons]
    exact (hfh g (List.mem_cons_self g rest)).append
      (ih (fun g2 hg2 => hfh g2 (List.mem_cons_of_mem g hg2)))

theorem groupLines_map_eq (imports : List Rec) (g : String) :
    (imports.filter (fun r => bucketOf r.1 r.2.1 == g)).map (fun r => r.2.2) =
      (buildGroups imports g).map (·.2) := by
  rw [buildGroups_apply, List.map_map]
  rfl

/-- Removing the blank separators from the output of `sort_imports` leaves
exactly the sorted bucket lines, in bucket order. -/
theorem sortImports_filter_eq (imports : List Rec)
    (hNE : ∀ r ∈ imports, r.2.2 ≠ "") :
    (sortImports imports).filter (fun s => s != "") =
      (groupKeys.map (groupLines imports)).flatten := by
  rw [sortImports_structure, filter_dropTrailingEmpties, List.filter_flatten,
    List.map_map]
  have hseg : ∀ g, ((List.filter (fun s => s != "")) ∘ (groupSeg imports)) g =
      groupLines imports g := by
    intro g
    simp only [Function.comp_apply]
    unfold groupSeg
    by_cases he : buildGroups imports g = []
    · rw [if_pos he]
      unfold groupLines pySorted
      rw [he]
      rfl
    · rw [if_neg he, List.filter_append]
      have h1 : (groupLines imports g).filter (fun s => s != "") =
          groupLines imports g := by
        rw [List.filter_eq_self]
        intro s hs
        obtain ⟨r, hr, hs2, _⟩ := mem_groupLines hs
        subst hs2
        simpa using hNE r hr
      have h2 : ([""].filter (fun s => s != "")) = ([] : List String) := by
        rfl
      rw [h1, h2, List.append_nil]
  exact List.map_congr_left (fun g _ => hseg g) ▸ rfl

/-- The blank-free part of the output of `sort_imports` is a permutation of
the rendered lines of the input records (the multiset of imports is
preserved).  The hypothesis holds of every record produced by the scanning
loop (`scanFile_rendered_ne_empty`). -/
theorem sortImports_filter_perm (imports : List Rec)
    (hNE : ∀ r ∈ imports, r.2.2 ≠ "") :
    ((sortImports imports).filter (fun s => s != "")).Perm
      (imports.map (fun r => r.2.2)) := by
  rw [sortImports_filter_eq imports hNE]
  have hstep1 : ((groupKeys.map (groupLines imports)).flatten).Perm
      ((groupKeys.map (fun g => (buildGroups imports g).map (·.2))).flatten) := by
    apply flatten_perm_of_pointwise
    intro g _
    exact (List.perm_insertionSort pairRel (buildGroups imports g)).map (·.2)
  refine hstep1.trans ?_
  have hmapeq2 : groupKeys.map (fun g => (buildGroups imports g).map (·.2)) =
      groupKeys.map (fun g =>
        (imports.filter (fun r => bucketOf r.1 r.2.1 == g)).map (fun r => r.2.2)) := by
    apply List.map_congr_left
    intro g _
    exact (groupLines_map_eq imports g).symm
  rw [hmapeq2]
  have hflat : (groupKeys.map (fun g =>
      (imports.filter (fun r => bucketOf r.1 r.2.1 == g)).map (fun r => r.2.2))).flatten =
      ((groupKeys.map (fun g =>
        imports.filter (fun r => bucketOf r.1 r.2.1 == g))).flatten).map (fun r => r.2.2) := by
    rw [List.map_flatten, List.map_map]
    rfl
  rw [hflat]
  exact (bucket_partition_perm groupKeys imports groupKeys_nodup
    (fun r _ => bucketOf_mem_groupKeys r.1 r.2.1)).map (fun r => r.2.2)

/-! ### Shape of the records produced by the scanning loop -/

theorem classifyLine_imp_facts (isJava : Bool) (raw : String) (r : Rec) (s : String)
    (b : Bool) (h : classifyLine isJava raw = LK.imp r s b) :
    s = pyStrip raw ∧ b = r.2.1.data.contains '*' ∧
    (s == "" || pyStartsWith s "//") = false ∧ packageMatch s = false ∧
    ∃ g1, importMatch s = some (g1, r.2.1) ∧ r.1 = (g1 == "import static") ∧
      r.2.2 = (if isJava && !(pyEndsWith s ";") then s ++ ";" else s) := by
  unfold classifyLine at h
  by_cases h1 : (pyStrip raw == "" || pyStartsWith (pyStrip raw) "//") = true
  · rw [if_pos h1] at h
    exact LK.noConfusion h
  · rw [if_neg h1] at h
    by_cases h2 : packageMatch (pyStrip raw) = true
    · rw [if_pos h2] at h
      exact LK.noConfusion h
    · rw [if_neg h2] at h
      cases h3 : importMatch (pyStrip raw) with
      | none =>
        rw [h3] at h
        exact LK.noConfusion h
      | some gp =>
        cases gp with
        | mk g1 path =>
          rw [h3] at h
          injection h with hr hs hb
          subst hr
          subst hs
          subst hb
          refine ⟨rfl, rfl, by simpa using h1, by simpa using h2, g1, h3, rfl, rfl⟩

theorem segPairs_mem_line (isJava : Bool) (idx : Nat) (ls : List String) :
    ∀ p ∈ segPairs isJava idx ls, idx ≤ p.1 ∧
      ∃ hj : p.1 - idx < ls.length,
        classifyLine isJava (ls.get ⟨p.1 - idx, hj⟩) = LK.imp p.2
          (pyStrip (ls.get ⟨p.1 - idx, hj⟩)) (p.2.2.1.data.contains '*') := by
  induction ls generalizing idx with
  | nil => simp [segPairs]
  | cons raw rest ih =>
    intro p hp
    simp only [segPairs, List.mem_append] at hp
    rcases hp with hp | hp
    · cases hcl : classifyLine isJava raw with
      | imp r stripped star =>
        rw [hcl] at hp
        simp only [List.mem_singleton] at hp
        subst hp
        obtain ⟨hs, hb, _⟩ := classifyLine_imp_facts isJava raw r stripped star hcl
        refine ⟨le_refl _, ?_⟩
        have h0 : idx - idx = 0 := Nat.sub_self idx
        refine ⟨by simp [h0], ?_⟩
        simp only [h0]
        show classifyLine isJava raw = LK.imp r (pyStrip raw) (r.2.1.data.contains '*')
        rw [hcl, hs, hb]
      | skip => rw [hcl] at hp; simp at hp
      | pkg => rw [hcl] at hp; simp at hp
      | other => rw [hcl] at hp; simp at hp
    · obtain ⟨hle, hj, hcl⟩ := ih (idx + 1) p hp
      refine ⟨by omega, ?_⟩
      have hsub : p.1 - idx = (p.1 - (idx + 1)) + 1 := by omega
      have hj2 : p.1 - idx < (raw :: rest).length := by
        simp only [List.length_cons]
        omega
      refine ⟨hj2, ?_⟩
      have hget : (raw :: rest).get ⟨p.1 - idx, hj2⟩ =
          rest.get ⟨p.1 - (idx + 1), hj⟩ := by
        have : (raw :: rest).get ⟨(p.1 - (idx + 1)) + 1, by simpa [hsub] using hj2⟩ =
            rest.get ⟨p.1 - (idx + 1), hj⟩ := rfl
        rw [← this]
        congr 1
        exact Fin.ext hsub
      rw [hget]
      exact hcl

/-- Shape of every record produced by the scanning loop: the rendered line
comes from stripping a source line (with a semicolon appended in Java mode
when missing), the stripped line is neither blank nor a comment nor a
package line, and the record fields agree with the import-pattern match of
the stripped line. -/
theorem scanFile_imports_shape (isJava : Bool) (lines : List String) :
    ∀ r ∈ (scanFile isJava lines).imports, ∃ s,
      r.2.2 = (if isJava && !(pyEndsWith s ";") then s ++ ";" else s) ∧
      (s == "" || pyStartsWith s "//") = false ∧ packageMatch s = false ∧
      (∃ g1, importMatch s = some (g1, r.2.1) ∧ r.1 = (g1 == "import static")) ∧
      ∃ i, ∃ hi : i < lines.length, s = pyStrip (lines.get ⟨i, hi⟩) := by
  intro r hr
  rw [scanFile_eq] at hr
  simp only [List.mem_map] at hr
  obtain ⟨p, hp, hr2⟩ := hr
  obtain ⟨_, hj, hcl⟩ := segPairs_mem_line isJava 0 lines p hp
  obtain ⟨hs, _, hguard, hpkg, g1, hmatch, hstatic, hrend⟩ :=
    classifyLine_imp_facts isJava (lines.get ⟨p.1 - 0, hj⟩) p.2
      (pyStrip (lines.get ⟨p.1 - 0, hj⟩)) (p.2.2.1.data.contains '*') hcl
  subst hr2
  exact ⟨pyStrip (lines.get ⟨p.1 - 0, hj⟩), hrend, hguard, hpkg,
    ⟨g1, hmatch, hstatic⟩, p.1 - 0, hj, rfl⟩

theorem data_append_semi (s : String) : (s ++ ";").data = s.data ++ [';'] := by
  rfl

theorem append_semi_ne_empty (s : String) : s ++ ";" ≠ "" := by
  intro hcon
  have : (s ++ ";").data = ("" : String).data := by rw [hcon]
  rw [data_append_semi] at this
  simp at this

theorem pyEndsWith_append_semi (s : String) : pyEndsWith (s ++ ";") ";" = true := by
  unfold pyEndsWith
  rw [data_append_semi]
  simp [List.isPrefixOf]

/-- Every rendered line produced by the scanning loop is nonempty. -/
theorem scanFile_rendered_ne_empty (isJava : Bool) (lines : List String) :
    ∀ r ∈ (scanFile isJava lines).imports, r.2.2 ≠ "" := by
  intro r hr
  obtain ⟨s, hrend, hguard, _, _, _⟩ := scanFile_imports_shape isJava lines r hr
  have hsne : s ≠ "" := by
    intro hcon
    subst hcon
    simp at hguard
  rw [hrend]
  by_cases hc : (isJava && !(pyEndsWith s ";")) = true
  · rw [if_pos hc]
    exact append_semi_ne_empty s
  · rw [if_neg hc]
    exact hsne

/-! ### Group-tagged view of the emitted block -/

/-- The emitted import lines tagged with the group key they came from
(blank separators omitted). -/
def taggedLines (imports : List Rec) : List (String × String) :=
  (groupKeys.map (fun g =>
    (pySorted (buildGroups imports g)).map (fun pr => (g, pr.2)))).flatten

theorem taggedLines_snd (imports : List Rec) :
    (taggedLines imports).map (·.2) = (groupKeys.map (groupLines imports)).flatten := by
  unfold taggedLines
  rw [List.map_flatten, List.map_map]
  congr 1
  apply List.map_congr_left
  intro g _
  simp [Function.comp, groupLines, List.map_map]

theorem prio_pairwise : List.Pairwise (fun g1 g2 => prio g1 ≤ prio g2) groupKeys := by
  decide

theorem pairwise_const_of_mem {α : Type} {R : α → α → Prop} {l : List α}
    (h : ∀ a ∈ l, ∀ b ∈ l, R a b) : List.Pairwise R l := by
  induction l with
  | nil => exact List.Pairwise.nil
  | cons a t ih =>
    refine List.Pairwise.cons ?_ (ih ?_)
    · intro b hb
      exact h a (List.mem_cons_self a t) b (List.mem_cons_of_mem a hb)
    · intro x hx y hy
      exact h x (List.mem_cons_of_mem a hx) y (List.mem_cons_of_mem a hy)

theorem taggedLines_pairwise (imports : List Rec) :
    List.Pairwise (fun a b : String × String => prio a.1 ≤ prio b.1)
      (taggedLines imports) := by
  unfold taggedLines
  rw [List.pairwise_flatten]
  constructor
  · intro inner hinner
    obtain ⟨g, _, hg⟩ := List.mem_map.mp hinner
    subst hg
    apply pairwise_const_of_mem
    intro a ha b hb
    obtain ⟨pa, _, hpa⟩ := List.mem_map.mp ha
    obtain ⟨pb, _, hpb⟩ := List.mem_map.mp hb
    rw [← hpa, ← hpb]
  · rw [List.pairwise_map]
    apply List.Pairwise.imp ?_ prio_pairwise
    intro g1 g2 hle x hx y hy
    obtain ⟨pa, _, hpa⟩ := List.mem_map.mp hx
    obtain ⟨pb, _, hpb⟩ := List.mem_map.mp hy
    rw [← hpa, ← hpb]
    exact hle

/-! ### Blank-separator shape of the emitted block -/

theorem chain'_flatten_segs (segs : List (List String))
    (hseg : ∀ seg ∈ segs, seg = [] ∨
      ∃ ls, seg = ls ++ [""] ∧ ls ≠ [] ∧ ∀ s ∈ ls, s ≠ "") :
    List.Chain' (fun a b => a ≠ "" ∨ b ≠ "") segs.flatten ∧
    (∀ s, segs.flatten.head? = some s → s ≠ "") := by
  induction segs with
  | nil => simp
  | cons seg rest ih =>
    have ihr := ih (fun s hs => hseg s (List.mem_cons_of_mem seg hs))
    rcases hseg seg (List.mem_cons_self seg rest) with he | ⟨ls, hls, hlsne, hlsnb⟩
    · subst he
      simpa using ihr
    · subst hls
      simp only [List.flatten_cons, List.append_assoc]
      constructor
      · apply List.Chain'.append
        · have : ∀ a ∈ ls, ∀ b, (a ≠ "" ∨ b ≠ "") := by
            intro a ha b
            exact Or.inl (hlsnb a ha)
          apply List.Pairwise.chain'
          apply pairwise_const_of_mem
          intro a ha b _
          exact this a ha b
        · apply List.Chain'.cons'
          · exact ihr.1
          · intro y hy
            exact Or.inr (ihr.2 y hy)
        · intro x hx y hy
          have hxls : x ∈ ls := by
            have := List.mem_of_mem_getLast? hx
            exact this
          exact Or.inl (hlsnb x hxls)
      · intro s hs
        cases ls with
        | nil => exact absurd rfl hlsne
        | cons a t =>
          simp only [List.cons_append, List.head?_cons, Option.some.injEq] at hs
          exact hs ▸ hlsnb a (List.mem_cons_self a t)

theorem groupSeg_shape (imports : List Rec) (hNE : ∀ r ∈ imports, r.2.2 ≠ "")
    (g : String) :
    groupSeg imports g = [] ∨
      ∃ ls, groupSeg imports g = ls ++ [""] ∧ ls ≠ [] ∧ ∀ s ∈ ls, s ≠ "" := by
  unfold groupSeg
  by_cases he : buildGroups imports g = []
  · exact Or.inl (if_pos he)
  · refine Or.inr ⟨groupLines imports g, if_neg he, ?_, ?_⟩
    · unfold groupLines
      intro hcon
      apply he
      have := (List.perm_insertionSort pairRel (buildGroups imports g)).symm
      have hlen : (pySorted (buildGroups imports g)).length =
          (buildGroups imports g).length :=
        (List.perm_insertionSort pairRel (buildGroups imports g)).length_eq
      have : (pySorted (buildGroups imports g)) = [] := by
        have := congrArg List.length hcon
        simp only [List.length_map] at this
        exact List.eq_nil_of_length_eq_zero this
      rw [this] at hlen
      simp only [List.length_nil] at hlen
      exact List.eq_nil_of_length_eq_zero hlen.symm
    · intro s hs
      obtain ⟨r, hr, hs2, _⟩ := mem_groupLines hs
      subst hs2
      exact hNE r hr

theorem sortImports_chain' (imports : List Rec)
    (hNE : ∀ r ∈ imports, r.2.2 ≠ "") :
    List.Chain' (fun a b => a ≠ "" ∨ b ≠ "") (sortImports imports) := by
  rw [sortImports_structure]
  apply chain'_dropTrailingEmpties
  refine (chain'_flatten_segs _ ?_).1
  intro seg hseg
  obtain ⟨g, hg, hgs⟩ := List.mem_map.mp hseg
  rw [← hgs]
  exact groupSeg_shape imports hNE g

/-! ### Claim theorems -/

/-- C1 (amended): for every processed file, the multiset of rendered import
lines emitted in the sorted block equals the multiset of import records
found by the scan (no import dropped, none duplicated), and each rendered
line is the whitespace-stripped text of an input line, except for the
appended `;` terminator where required.  (The claim as frozen says "the
exact original line text"; `claim1_counterexample` shows the rendered line
is the stripped text, not the raw text, when the source line carries
leading whitespace.) -/
theorem claim1_no_data_loss (isJava : Bool) (lines : List String) :
    (((sortImports (scanFile isJava lines).imports).filter (fun s => s != "")).Perm
      ((scanFile isJava lines).imports.map (fun r => r.2.2))) ∧
    ∀ r ∈ (scanFile isJava lines).imports, ∃ i, ∃ hi : i < lines.length,
      r.2.2 = pyStrip (lines.get ⟨i, hi⟩) ∨
      r.2.2 = pyStrip (lines.get ⟨i, hi⟩) ++ ";" := by
  constructor
  · exact sortImports_filter_perm _ (scanFile_rendered_ne_empty isJava lines)
  · intro r hr
    obtain ⟨s, hrend, _, _, _, i, hi, hsi⟩ := scanFile_imports_shape isJava lines r hr
    subst hsi
    refine ⟨i, hi, ?_⟩
    by_cases hc : (isJava && !(pyEndsWith (pyStrip (lines.get ⟨i, hi⟩)) ";")) = true
    · rw [hrend, if_pos hc]
      exact Or.inr rfl
    · rw [hrend, if_neg hc]
      exact Or.inl rfl

/-- C1 (counterexample): for the Kotlin line `"  import a.b\n"` the
rendered line is the stripped text `"import a.b"`, which differs from the
original line text and from the original line text with a terminator
appended — so the rendered line is not "the exact original line text
except for the appended terminator". -/
theorem claim1_counterexample :
    (scanFile false ["  import a.b\n"]).imports = [(false, "a.b", "import a.b")] ∧
    ("import a.b" : String) ≠ "  import a.b\n" ∧
    ("import a.b" : String) ≠ "  import a.b" ∧
    ("import a.b" : String) ≠ "  import a.b" ++ ";" ∧
    ("import a.b" : String) ≠ "  import a.b\n" ++ ";" := by
  decide

/-- Witness for `claim1_no_data_loss` at a concrete two-line Java file. -/
theorem claim1_no_data_loss_witness :
    ∀ r ∈ (scanFile true ["import com.b.X\n", "import com.a.Y\n"]).imports,
      ∃ i, ∃ hi : i < (["import com.b.X\n", "import com.a.Y\n"] : List String).length,
        r.2.2 = pyStrip ((["import com.b.X\n", "import com.a.Y\n"] : List String).get ⟨i, hi⟩) ∨
        r.2.2 = pyStrip ((["import com.b.X\n", "import com.a.Y\n"] : List String).get ⟨i, hi⟩) ++ ";" :=
  (claim1_no_data_loss true ["import com.b.X\n", "import com.a.Y\n"]).2

/-- C3: the emitted block lists the groups in the fixed priority order:
dropping the blank separators, the output of `sort_imports` is the
group-tagged line list projected to its lines, and along that tagged list
the priority index of the originating group is monotonically
non-decreasing — so a line of group G1 emitted before a line of group G2
forces `prio G1 ≤ prio G2`. -/
theorem claim3_group_ordering (imports : List Rec)
    (hNE : ∀ r ∈ imports, r.2.2 ≠ "") :
    ((sortImports imports).filter (fun s => s != "") =
      (taggedLines imports).map (·.2)) ∧
    List.Pairwise (fun a b : String × String => prio a.1 ≤ prio b.1)
      (taggedLines imports) :=
  ⟨by rw [sortImports_filter_eq imports hNE, taggedLines_snd],
   taggedLines_pairwise imports⟩

/-- Records of the three Scenario-1 imports, used to witness the claims
whose theorems carry a hypothesis. -/
def demoRecs : List Rec :=
  [(false, "org.foo.Bar", "import org.foo.Bar;"),
   (false, "android.view.View", "import android.view.View;"),
   (true, "java.util.Map.entry", "import static java.util.Map.entry;")]

/-- Witness for `claim3_group_ordering` at the Scenario-1 records. -/
theorem claim3_group_ordering_witness :
    ((sortImports demoRecs).filter (fun s => s != "") =
      (taggedLines demoRecs).map (·.2)) ∧
    List.Pairwise (fun a b : String × String => prio a.1 ≤ prio b.1)
      (taggedLines demoRecs) :=
  claim3_group_ordering demoRecs (by decide)

/-- C4: within each group the emitted lines are the records sorted by the
full tuple order, and along each sorted bucket the path components are in
non-decreasing lexicographic (code-point) order; the first conjunct ties
the buckets to the actual output of `sort_imports`. -/
theorem claim4_within_group_sorted (imports : List Rec) :
    (sortImports imports =
      dropTrailingEmpties ((groupKeys.map (groupSeg imports)).flatten)) ∧
    ∀ g, List.Chain' (fun a b : String × String => a.1 ≤ b.1)
      (pySorted (buildGroups imports g)) := by
  refine ⟨sortImports_structure imports, fun g => ?_⟩
  have hs := List.sorted_insertionSort pairRel (buildGroups imports g)
  have hpw : List.Pairwise (fun a b : String × String => a.1 ≤ b.1)
      (List.insertionSort pairRel (buildGroups imports g)) := by
    apply List.Pairwise.imp ?_ hs
    intro a b hab
    rcases hab with h | ⟨h, _⟩
    · exact le_of_lt h
    · exact le_of_eq h
  exact hpw.chain'

/-- C5 (counterexample): for a non-static import with unknown top-level
segment, `get_import_group` does not return a fixed catch-all label: it
returns `"zzz_other." + path`, a different value for different paths, and
a value outside the fixed key set. -/
theorem claim5_counterexample :
    get_import_group "foo.bar" false = "zzz_other.foo.bar" ∧
    get_import_group "foo.bar" false ∉ groupKeys ∧
    get_import_group "foo.bar" false ≠ get_import_group "baz.qux" false := by
  decide

/-- C5 (amended): the group assignment actually applied by `sort_imports`
is pure and total: a static record maps to `"static"`, a non-static record
whose top-level segment is one of the `IMPORT_ORDER` entries maps to that
segment, and every other record maps to the single catch-all key
`"zzz_other"` — always an element of the fixed key set `groupKeys`.  The
unused helper `get_import_group` agrees except that its catch-all value is
`"zzz_other." ++ path` instead of a fixed label. -/
theorem claim5_group_assignment_total (b : Bool) (p : String) :
    bucketOf b p ∈ groupKeys ∧
    bucketOf b p = (if b then "static"
      else if topOf p ∈ IMPORT_ORDER then topOf p else "zzz_other") ∧
    get_import_group p b = (if b then "static"
      else if topOf p ∈ IMPORT_ORDER then topOf p else "zzz_other." ++ p) := by
  refine ⟨bucketOf_mem_groupKeys b p, ?_, ?_⟩
  · unfold bucketOf
    cases b with
    | true => rfl
    | false =>
      simp only [Bool.false_eq_true, if_false]
      cases hf : IMPORT_ORDER.find? (fun g => topOf p == g) with
      | some g =>
        have hg : (topOf p == g) = true := List.find?_some hf
        have hmem : g ∈ IMPORT_ORDER := List.mem_of_find?_eq_some hf
        have heq : topOf p = g := by simpa using hg
        rw [if_pos (heq ▸ hmem), heq]
      | none =>
        have hnm : topOf p ∉ IMPORT_ORDER := by
          intro hmem
          have := List.find?_eq_none.mp hf (topOf p) hmem
          simp at this
        rw [if_neg hnm]
  · unfold get_import_group
    cases b with
    | true => rfl
    | false =>
      simp only [Bool.false_eq_true, if_false]
      by_cases hmem : topOf p ∈ IMPORT_ORDER
      · have hc : IMPORT_ORDER.contains (topOf p) = true :=
          List.elem_eq_true_of_mem hmem
        rw [if_pos hc, if_pos hmem]
      · have hc : ¬ (IMPORT_ORDER.contains (topOf p) = true) := by
          intro hcon
          exact hmem (List.mem_of_elem_eq_true hcon)
        rw [if_neg hc, if_neg hmem]

/-- C6: the emitted block separates adjacent nonempty groups by exactly one
blank line (the structural first conjunct: each nonempty bucket contributes
its lines plus one blank, an empty bucket contributes nothing, and trailing
blanks are stripped), no two consecutive emitted lines are both blank, and
no blank line ends the block. -/
theorem claim6_blank_line_rule (imports : List Rec)
    (hNE : ∀ r ∈ imports, r.2.2 ≠ "") :
    (sortImports imports =
      dropTrailingEmpties ((groupKeys.map (groupSeg imports)).flatten)) ∧
    List.Chain' (fun a b => a ≠ "" ∨ b ≠ "") (sortImports imports) ∧
    (sortImports imports).getLast? ≠ some "" := by
  refine ⟨sortImports_structure imports, sortImports_chain' imports hNE, ?_⟩
  rw [sortImports_structure]
  exact dropTrailingEmpties_getLast? _

/-- Witness for `claim6_blank_line_rule` at the Scenario-1 records. -/
theorem claim6_blank_line_rule_witness :
    (sortImports demoRecs =
      dropTrailingEmpties ((groupKeys.map (groupSeg demoRecs)).flatten)) ∧
    List.Chain' (fun a b => a ≠ "" ∨ b ≠ "") (sortImports demoRecs) ∧
    (sortImports demoRecs).getLast? ≠ some "" :=
  claim6_blank_line_rule demoRecs (by decide)

/-- C7: a file in which the scan finds no import statements is not
rewritten: `transform` returns `none` (no write happens) and a full run
leaves the content byte-identical. -/
theorem claim7_no_imports_unchanged (isJava : Bool) (content : String)
    (h : (scanFile isJava (pyReadlines content)).imports = []) :
    transform isJava (pyReadlines content) = none ∧
    runContent isJava content = content := by
  have ht : transform isJava (pyReadlines content) = none := by
    simp [transform, h]
  refine ⟨ht, ?_⟩
  unfold runContent
  rw [ht]

/-- Witness for `claim7_no_imports_unchanged` on a file with no imports. -/
theorem claim7_no_imports_unchanged_witness :
    transform false (pyReadlines "class X\n") = none ∧
    runContent false "class X\n" = "class X\n" :=
  claim7_no_imports_unchanged false "class X\n" (by decide)

/-- C8: in Java mode every scanned record's rendered line ends with `;`,
and it equals the stripped source line when that line already ends with
`;` and the stripped line with `;` appended otherwise; in Kotlin mode the
rendered line is always exactly the stripped source line (no terminator is
ever added). -/
theorem claim8_terminator_rule (lines : List String) :
    (∀ r ∈ (scanFile true lines).imports, pyEndsWith r.2.2 ";" = true) ∧
    (∀ r ∈ (scanFile true lines).imports, ∃ i, ∃ hi : i < lines.length,
      r.2.2 = (if pyEndsWith (pyStrip (lines.get ⟨i, hi⟩)) ";" = true
               then pyStrip (lines.get ⟨i, hi⟩)
               else pyStrip (lines.get ⟨i, hi⟩) ++ ";")) ∧
    (∀ r ∈ (scanFile false lines).imports, ∃ i, ∃ hi : i < lines.length,
      r.2.2 = pyStrip (lines.get ⟨i, hi⟩)) := by
  refine ⟨?_, ?_, ?_⟩
  · intro r hr
    obtain ⟨s, hrend, _, _, _, _⟩ := scanFile_imports_shape true lines r hr
    cases hb : pyEndsWith s ";" with
    | true =>
      rw [hrend, hb]
      simpa using hb
    | false =>
      rw [hrend, hb]
      simpa using pyEndsWith_append_semi s
  · intro r hr
    obtain ⟨s, hrend, _, _, _, i, hi, hsi⟩ := scanFile_imports_shape true lines r hr
    subst hsi
    refine ⟨i, hi, ?_⟩
    cases hb : pyEndsWith (pyStrip (lines.get ⟨i, hi⟩)) ";" with
    | true =>
      rw [hrend, hb]
      simp
    | false =>
      rw [hrend, hb]
      simp
  · intro r hr
    obtain ⟨s, hrend, _, _, _, i, hi, hsi⟩ := scanFile_imports_shape false lines r hr
    subst hsi
    refine ⟨i, hi, ?_⟩
    rw [hrend]
    simp

/-- Witness for `claim8_terminator_rule` at the Scenario-2 file. -/
theorem claim8_terminator_rule_witness :
    ∀ r ∈ (scanFile true ["import com.b.X\n", "import com.a.Y\n"]).imports,
      pyEndsWith r.2.2 ";" = true :=
  (claim8_terminator_rule ["import com.b.X\n", "import com.a.Y\n"]).1

/-! ### Field equations and bounds for the scan result -/

theorem scanFile_imports_eq (isJava : Bool) (lines : List String) :
    (scanFile isJava lines).imports = (segPairs isJava 0 lines).map (·.2) := by
  rw [scanFile_eq]

theorem scanFile_importLines_eq (isJava : Bool) (lines : List String) :
    (scanFile isJava lines).importLines = (segPairs isJava 0 lines).map (·.1) := by
  rw [scanFile_eq]

theorem scanFile_starImports_eq (isJava : Bool) (lines : List String) :
    (scanFile isJava lines).starImports = segStars isJava 0 lines := by
  rw [scanFile_eq]

theorem scanFile_packageIdx_eq (isJava : Bool) (lines : List String) :
    (scanFile isJava lines).packageIdx =
      (match segPkg isJava 0 lines with
       | some k => (k : Int)
       | none => -1) := by
  rw [scanFile_eq]

theorem segPairs_ne_nil_of_imports (isJava : Bool) (lines : List String)
    (h : (scanFile isJava lines).imports ≠ []) : segPairs isJava 0 lines ≠ [] := by
  rw [scanFile_imports_eq] at h
  intro hc
  rw [hc] at h
  exact h rfl

theorem scanFile_first_lt (isJava : Bool) (lines : List String)
    (h : (scanFile isJava lines).imports ≠ []) :
    (scanFile isJava lines).importLines.headD 0 < lines.length := by
  rw [scanFile_importLines_eq]
  have hsp := segPairs_ne_nil_of_imports isJava lines h
  cases hc : segPairs isJava 0 lines with
  | nil => exact absurd hc hsp
  | cons p t =>
    simp only [List.map_cons, List.headD_cons]
    have := segPairs_bounds isJava 0 lines p (by rw [hc]; exact List.mem_cons_self p t)
    omega

theorem scanFile_last_lt (isJava : Bool) (lines : List String)
    (h : (scanFile isJava lines).imports ≠ []) :
    (scanFile isJava lines).importLines.getLastD 0 < lines.length := by
  rw [scanFile_importLines_eq]
  have hsp := segPairs_ne_nil_of_imports isJava lines h
  have hmapne : (segPairs isJava 0 lines).map (·.1) ≠ [] := by
    intro hc
    exact hsp (List.map_eq_nil_iff.mp hc)
  rw [List.getLastD_eq_getLast?, List.getLast?_eq_getLast _ hmapne]
  simp only [Option.getD_some]
  have hmem := List.getLast_mem hmapne
  obtain ⟨p, hp, hpe⟩ := List.mem_map.mp hmem
  rw [← hpe]
  have := segPairs_bounds isJava 0 lines p hp
  omega

theorem scanFile_pkg_lt (isJava : Bool) (lines : List String)
    (h : (scanFile isJava lines).packageIdx ≠ -1) :
    0 ≤ (scanFile isJava lines).packageIdx ∧
    (scanFile isJava lines).packageIdx.toNat < lines.length := by
  rw [scanFile_packageIdx_eq] at h ⊢
  cases hc : segPkg isJava 0 lines with
  | none =>
    exfalso
    apply h
    rw [hc]
  | some k =>
    have hb := segPkg_bounds isJava 0 lines k hc
    constructor
    · show (0 : Int) ≤ (k : Int)
      exact Int.ofNat_nonneg k
    · show ((k : Int)).toNat < lines.length
      simp only [Int.toNat_ofNat]
      omega

/-! ### Closed form of `transform` when imports are present -/

/-- The index of the first import line (`import_lines[0]`). -/
def firstIdx (isJava : Bool) (lines : List String) : Nat :=
  (scanFile isJava lines).importLines.headD 0

/-- The index of the last import line (`import_lines[-1]`). -/
def lastIdx (isJava : Bool) (lines : List String) : Nat :=
  (scanFile isJava lines).importLines.getLastD 0

/-- The preserved-comment buffer and `next_content_idx` computed by the
trailing-line loop of `process_file`. -/
def presOf (isJava : Bool) (lines : List String) : List String × Nat :=
  presGo (lines.drop (lastIdx isJava lines + 1)) (lastIdx isJava lines + 1)


theorem transform_eq (isJava : Bool) (lines : List String)
    (hne : ¬ (scanFile isJava lines).imports = []) :
    transform isJava lines =
      (if (scanFile isJava lines).packageIdx ≠ -1 then
        some (lines.take ((scanFile isJava lines).packageIdx.toNat + 1) ++ ["\n"]
          ++ (sortImports (scanFile isJava lines).imports).map (· ++ "\n")
          ++ ((presOf isJava lines).1 ++ ["\n"])
          ++ lines.drop (presOf isJava lines).2)
      else
        some (lines.take (firstIdx isJava lines)
          ++ (sortImports (scanFile isJava lines).imports).map (· ++ "\n")
          ++ ((presOf isJava lines).1 ++ ["\n"])
          ++ lines.drop (presOf isJava lines).2)) := by
  simp only [transform, presOf, firstIdx, lastIdx]
  rw [if_neg hne]

theorem take_append_exact {α : Type} (A B : List α) (n : Nat) (h : A.length = n) :
    (A ++ B).take n = A := by
  subst h
  exact List.take_left A B

theorem drop_append_exact {α : Type} (A B : List α) (n : Nat) (h : A.length = n) :
    (A ++ B).drop n = B := by
  subst h
  exact List.drop_left A B

/-- C2 (counterexample): in a file whose package declaration is followed by
a comment line and then the imports, the comment line — which lies strictly
before the first import (index 2) — is dropped from the output entirely,
so the region before the first import is not preserved byte-for-byte
(not even up to inserted blank separators). -/
theorem claim2_counterexample :
    (scanFile false ["package p;\n", "// c\n", "import a.b\n", "class X\n"]).importLines.headD 0 = 2 ∧
    "// c\n" ∈ (["package p;\n", "// c\n", "import a.b\n", "class X\n"] : List String).take 2 ∧
    transform false ["package p;\n", "// c\n", "import a.b\n", "class X\n"] =
      some ["package p;\n", "\n", "import a.b\n", "\n", "class X\n"] ∧
    "// c\n" ∉ (["package p;\n", "\n", "import a.b\n", "\n", "class X\n"] : List String) := by
  decide

/-- C2 (amended): when the scan finds imports, `transform` rewrites the file
and preserves byte-for-byte (a) the prefix up to and including the package
declaration line when one is present — but not the lines strictly between
the package line and the first import, see `claim2_counterexample` — or the
whole prefix before the first import when no package line is present, and
(b) as a suffix, everything from the first substantive (non-blank,
non-comment) line after the last import onward. -/
theorem claim2_frame_preservation (isJava : Bool) (lines : List String)
    (hne : (scanFile isJava lines).imports ≠ []) :
    ∃ out, transform isJava lines = some out ∧
      ((scanFile isJava lines).packageIdx = -1 →
        out.take (firstIdx isJava lines) = lines.take (firstIdx isJava lines)) ∧
      ((scanFile isJava lines).packageIdx ≠ -1 →
        out.take ((scanFile isJava lines).packageIdx.toNat + 1) =
          lines.take ((scanFile isJava lines).packageIdx.toNat + 1)) ∧
      ∃ k, out.drop k = lines.drop (presOf isJava lines).2 := by
  rw [transform_eq isJava lines hne]
  by_cases hpkg : (scanFile isJava lines).packageIdx ≠ -1
  · rw [if_pos hpkg]
    refine ⟨_, rfl, fun hcon => absurd hcon hpkg, fun _ => ?_, ?_⟩
    · have hlen : (lines.take ((scanFile isJava lines).packageIdx.toNat + 1)).length =
          (scanFile isJava lines).packageIdx.toNat + 1 := by
        rw [List.length_take]
        have := (scanFile_pkg_lt isJava lines hpkg).2
        omega
      simp only [List.append_assoc]
      exact take_append_exact _ _ _ hlen
    · exact ⟨(lines.take ((scanFile isJava lines).packageIdx.toNat + 1) ++ ["\n"]
        ++ (sortImports (scanFile isJava lines).imports).map (· ++ "\n")
        ++ ((presOf isJava lines).1 ++ ["\n"])).length,
        drop_append_exact _ _ _ rfl⟩
  · rw [if_neg hpkg]
    refine ⟨_, rfl, fun _ => ?_, fun hcon => absurd hcon hpkg, ?_⟩
    · have hlen : (lines.take (firstIdx isJava lines)).length = firstIdx isJava lines := by
        rw [List.length_take]
        have := scanFile_first_lt isJava lines hne
        unfold firstIdx
        omega
      simp only [List.append_assoc]
      exact take_append_exact _ _ _ hlen
    · exact ⟨(lines.take (firstIdx isJava lines)
        ++ (sortImports (scanFile isJava lines).imports).map (· ++ "\n")
        ++ ((presOf isJava lines).1 ++ ["\n"])).length,
        drop_append_exact _ _ _ rfl⟩

/-- Witness for `claim2_frame_preservation` at the counterexample file. -/
theorem claim2_frame_preservation_witness :
    ∃ out, transform false ["package p;\n", "// c\n", "import a.b\n", "class X\n"] = some out ∧
      ((scanFile false ["package p;\n", "// c\n", "import a.b\n", "class X\n"]).packageIdx = -1 →
        out.take (firstIdx false ["package p;\n", "// c\n", "import a.b\n", "class X\n"]) =
          (["package p;\n", "// c\n", "import a.b\n", "class X\n"] : List String).take
            (firstIdx false ["package p;\n", "// c\n", "import a.b\n", "class X\n"])) ∧
      ((scanFile false ["package p;\n", "// c\n", "import a.b\n", "class X\n"]).packageIdx ≠ -1 →
        out.take ((scanFile false ["package p;\n", "// c\n", "import a.b\n", "class X\n"]).packageIdx.toNat + 1) =
          (["package p;\n", "// c\n", "import a.b\n", "class X\n"] : List String).take
            ((scanFile false ["package p;\n", "// c\n", "import a.b\n", "class X\n"]).packageIdx.toNat + 1)) ∧
      ∃ k, out.drop k =
        (["package p;\n", "// c\n", "import a.b\n", "class X\n"] : List String).drop
          (presOf false ["package p;\n", "// c\n", "import a.b\n", "class X\n"]).2 :=
  claim2_frame_preservation false ["package p;\n", "// c\n", "import a.b\n", "class X\n"]
    (by decide)

/-! ### Reading lines back and the star-import warning heuristic -/

theorem readlinesGo_flatten (cur : List Char) (l : List Char) :
    (readlinesGo cur l).flatten = cur.reverse ++ l := by
  induction l generalizing cur with
  | nil =>
    by_cases h : cur = []
    · simp [readlinesGo, h]
    · simp [readlinesGo, h]
  | cons c rest ih =>
    by_cases hc : c = '\n'
    · subst hc
      simp [readlinesGo, ih]
    · simp [readlinesGo, hc, ih]

theorem data_join (l : List String) :
    (String.join l).data = (l.map String.data).flatten := by
  have h : ∀ (l : List String) (acc : String),
      (l.foldl (· ++ ·) acc).data = acc.data ++ (l.map String.data).flatten := by
    intro l
    induction l with
    | nil => intro acc; simp
    | cons s t ih =>
      intro acc
      simp only [List.foldl_cons, ih, List.map_cons, List.flatten_cons,
        String.data_append, List.append_assoc]
  have := h l ""
  simpa [String.join] using this

theorem pyReadlines_join (content : String) :
    String.join (pyReadlines content) = content := by
  rw [← String.toList_inj]
  show (String.join (pyReadlines content)).data = content.data
  rw [data_join]
  unfold pyReadlines
  rw [List.map_map]
  have hmap : (readlinesGo [] content.data).map (String.data ∘ (fun l => (⟨l⟩ : String))) =
      readlinesGo [] content.data := by
    have hid : ∀ a ∈ readlinesGo [] content.data,
        (String.data ∘ (fun l => (⟨l⟩ : String))) a = id a := fun a _ => rfl
    rw [List.map_congr_left hid, List.map_id]
  rw [hmap, readlinesGo_flatten]
  rfl

theorem pyReadlines_data_mem {content : String} {l : String}
    (h : l ∈ pyReadlines content) : l.data ∈ readlinesGo [] content.data := by
  unfold pyReadlines at h
  obtain ⟨ld, hld, he⟩ := List.mem_map.mp h
  rw [← he]
  exact hld

/-- Occurrence of a character pattern as a contiguous substring (the test
behind Python `pat in content` and `content.count(pat) > 0`). -/
def hasSubstrL (pat : List Char) : List Char → Bool
  | [] => pat.isEmpty
  | c :: t => pat.isPrefixOf (c :: t) || hasSubstrL pat t

/-- The star-warning condition of `scan_and_process` (source lines
198-206): a file is added to `star_import_files` iff its content contains
the substring `"import "` (making `content.count("import ") > 0`) and
contains the character `*` anywhere. -/
def starFlagged (content : String) : Bool :=
  hasSubstrL "import ".data content.data && content.data.contains '*'

theorem hasSubstrL_here (pat post : List Char) :
    hasSubstrL pat (pat ++ post) = true := by
  cases hc : pat ++ post with
  | nil =>
    have hp : pat = [] := (List.append_eq_nil.mp hc).1
    rw [hp]
    rfl
  | cons c t =>
    show (pat.isPrefixOf (c :: t) || hasSubstrL pat t) = true
    have hpre : pat.isPrefixOf (pat ++ post) = true :=
      List.isPrefixOf_iff_prefix.mpr ⟨post, rfl⟩
    rw [hc] at hpre
    rw [hpre]
    rfl

theorem hasSubstrL_of_parts (pat : List Char) :
    ∀ (pre post l : List Char), l = pre ++ pat ++ post → hasSubstrL pat l = true := by
  intro pre
  induction pre with
  | nil =>
    intro post l hl
    simp only [List.nil_append] at hl
    subst hl
    exact hasSubstrL_here pat post
  | cons c pre ih =>
    intro post l hl
    subst hl
    show (pat.isPrefixOf _ || hasSubstrL pat (pre ++ pat ++ post)) = true
    rw [ih post _ rfl]
    simp

theorem pyStripL_parts (l : List Char) : ∃ a b, l = a ++ pyStripL l ++ b := by
  have h1 : l = l.takeWhile isWS ++ l.dropWhile isWS :=
    (List.takeWhile_append_dropWhile isWS l).symm
  have h3 : (l.dropWhile isWS).reverse =
      (l.dropWhile isWS).reverse.takeWhile isWS ++
        (l.dropWhile isWS).reverse.dropWhile isWS :=
    (List.takeWhile_append_dropWhile isWS _).symm
  have h2 : l.dropWhile isWS =
      pyStripL l ++ ((l.dropWhile isWS).reverse.takeWhile isWS).reverse := by
    calc l.dropWhile isWS
        = (l.dropWhile isWS).reverse.reverse := (List.reverse_reverse _).symm
      _ = ((l.dropWhile isWS).reverse.takeWhile isWS ++
            (l.dropWhile isWS).reverse.dropWhile isWS).reverse := by rw [← h3]
      _ = ((l.dropWhile isWS).reverse.dropWhile isWS).reverse ++
            ((l.dropWhile isWS).reverse.takeWhile isWS).reverse :=
          List.reverse_append _ _
      _ = pyStripL l ++ ((l.dropWhile isWS).reverse.takeWhile isWS).reverse := rfl
  refine ⟨l.takeWhile isWS, ((l.dropWhile isWS).reverse.takeWhile isWS).reverse, ?_⟩
  conv_lhs => rw [h1, h2]
  rw [List.append_assoc]

/-- C10 (counterexample): a Kotlin file whose only `*` occurs in ordinary
code (`val x = 1 * 2`) and which contains an import is added to the
star-import warning list, although its scan finds no wildcard import
statement — so membership in the warning list is not equivalent to
containing a wildcard import. -/
theorem claim10_counterexample :
    starFlagged "import a.b\nval x = 1 * 2\n" = true ∧
    (scanFile false (pyReadlines "import a.b\nval x = 1 * 2\n")).starImports = [] := by
  decide

/-- C10 (amended): a wildcard import is grouped by exactly the same rule as
any other import — `foo.bar.*` lands in the `zzz_other` bucket since `foo`
is not a known prefix, and in general every record is placed in the bucket
selected by `bucketOf`, which ignores the `*` — and every file containing a
wildcard import written as `import<space>…*` is flagged by the warning
heuristic; but the heuristic is the substring test of `starFlagged`
(content contains `"import "` and `*`), so files whose only `*` is outside
any import are flagged as well (`claim10_counterexample`). -/
theorem claim10_star_handling :
    (∀ b : Bool, bucketOf b "foo.bar.*" = (if b then "static" else "zzz_other")) ∧
    (∀ (imports : List Rec) (r : Rec), r ∈ imports →
      (r.2.1, r.2.2) ∈ buildGroups imports (bucketOf r.1 r.2.1)) ∧
    (∀ (content l : String), l ∈ pyReadlines content →
      pyStartsWith (pyStrip l) "import " = true →
      (pyStrip l).data.contains '*' = true →
      starFlagged content = true) := by
  refine ⟨?_, ?_, ?_⟩
  · intro b
    cases b <;> decide
  · intro imports r hr
    rw [buildGroups_apply]
    exact List.mem_map.mpr ⟨r, List.mem_filter.mpr ⟨hr, by simp⟩, rfl⟩
  · intro content l hl hsw hstar
    have hld := pyReadlines_data_mem hl
    obtain ⟨L1, L2, hLL⟩ := List.append_of_mem hld
    have hcontent : content.data = L1.flatten ++ l.data ++ L2.flatten := by
      have := readlinesGo_flatten [] content.data
      rw [hLL] at this
      simp only [List.flatten_append, List.flatten_cons, List.reverse_nil,
        List.nil_append] at this
      rw [← this, List.append_assoc]
    obtain ⟨a, b, hab⟩ := pyStripL_parts l.data
    have hstrip_data : (pyStrip l).data = pyStripL l.data := rfl
    obtain ⟨rest, hrest⟩ : ∃ rest, (pyStrip l).data = "import ".data ++ rest := by
      have := List.isPrefixOf_iff_prefix.mp hsw
      exact ⟨this.choose, this.choose_spec.symm⟩
    unfold starFlagged
    have h1 : hasSubstrL "import ".data content.data = true := by
      apply hasSubstrL_of_parts "import ".data (L1.flatten ++ a) (rest ++ b ++ L2.flatten)
      rw [hcontent]
      conv_lhs => rw [hab]
      rw [hstrip_data] at hrest
      rw [hrest]
      simp [List.append_assoc]
    have h2 : content.data.contains '*' = true := by
      have hmem : '*' ∈ (pyStrip l).data := List.mem_of_elem_eq_true hstar
      have hmem2 : '*' ∈ pyStripL l.data := by
        rw [← hstrip_data]
        exact hmem
      apply List.elem_eq_true_of_mem
      rw [hcontent, hab]
      exact List.mem_append_left _ (List.mem_append_right _
        (List.mem_append_left _ (List.mem_append_right _ hmem2)))
    rw [h1, h2]
    rfl

/-- Witness for `claim10_star_handling` at a record with a starred path and
at a one-line wildcard-import file. -/
theorem claim10_star_handling_witness :
    ((("foo.bar.*", "import foo.bar.*") : String × String) ∈
      buildGroups [(false, "foo.bar.*", "import foo.bar.*")] (bucketOf false "foo.bar.*")) ∧
    starFlagged "import foo.*\n" = true :=
  ⟨claim10_star_handling.2.1 [(false, "foo.bar.*", "import foo.bar.*")]
      (false, "foo.bar.*", "import foo.bar.*") (by decide),
   claim10_star_handling.2.2 "import foo.*\n" "import foo.*\n"
      (by decide) (by decide) (by decide)⟩

/-! ### Algebra of `pyStrip`: trailing whitespace, idempotence, semicolons -/

theorem dropWhile_append_single {p : Char → Bool} (x : List Char) (c : Char)
    (hc : p c = false) : (x ++ [c]).dropWhile p = x.dropWhile p ++ [c] := by
  rw [List.dropWhile_append]
  by_cases h : (x.dropWhile p).isEmpty = true
  · rw [if_pos h]
    have hx : x.dropWhile p = [] := by simpa using h
    rw [hx]
    simp [List.dropWhile_cons, hc]
  · rw [if_neg h]

theorem takeWhile_append_single {p : Char → Bool} (x : List Char) (c : Char)
    (hc : p c = false) : (x ++ [c]).takeWhile p = x.takeWhile p := by
  rw [List.takeWhile_append]
  by_cases h : (x.takeWhile p).length = x.length
  · rw [if_pos h]
    have hc1 : List.takeWhile p [c] = [] := by simp [List.takeWhile_cons, hc]
    rw [hc1, List.append_nil]
    exact ((List.takeWhile_prefix p).eq_of_length h).symm
  · rw [if_neg h]

theorem dropWhile_idem {p : Char → Bool} (l : List Char) :
    (l.dropWhile p).dropWhile p = l.dropWhile p := by
  cases hd : l.dropWhile p with
  | nil => rfl
  | cons d t =>
    have : p d = false := by
      apply head?_dropWhile_false p l
      rw [hd]
      rfl
    simp [List.dropWhile_cons, this]

theorem pyStripL_append_ws (x : List Char) (c : Char) (hc : isWS c = true) :
    pyStripL (x ++ [c]) = pyStripL x := by
  unfold pyStripL
  rw [List.dropWhile_append]
  by_cases h : (x.dropWhile isWS).isEmpty = true
  · rw [if_pos h]
    have hx : x.dropWhile isWS = [] := by simpa using h
    rw [hx]
    simp [List.dropWhile_cons, hc]
  · rw [if_neg h]
    rw [List.reverse_append]
    simp [List.dropWhile_cons, hc]

theorem pyStripL_append_ws_list (t : List Char) :
    ∀ (x : List Char), (∀ c ∈ t, isWS c = true) →
      pyStripL (x ++ t) = pyStripL x := by
  induction t with
  | nil => intro x _; rw [List.append_nil]
  | cons c t ih =>
    intro x ht
    have hstep : x ++ c :: t = (x ++ [c]) ++ t := by simp
    rw [hstep, ih (x ++ [c]) (fun d hd => ht d (List.mem_cons_of_mem c hd)),
      pyStripL_append_ws x c (ht c (List.mem_cons_self c t))]

theorem rtrim_parts (p : Char → Bool) (y : List Char) :
    ∃ t, y = (y.reverse.dropWhile p).reverse ++ t ∧ ∀ c ∈ t, p c = true := by
  refine ⟨(y.reverse.takeWhile p).reverse, ?_, ?_⟩
  · conv_lhs => rw [← y.reverse_reverse]
    conv_lhs => rw [← List.takeWhile_append_dropWhile p y.reverse]
    rw [List.reverse_append]
  · intro c hc
    exact List.mem_takeWhile_imp (List.mem_reverse.mp hc)

theorem head?_pyStripL (l : List Char) (d : Char)
    (h : (pyStripL l).head? = some d) : isWS d = false := by
  obtain ⟨t, hparts, _⟩ := rtrim_parts isWS (l.dropWhile isWS)
  have hpre : pyStripL l = ((l.dropWhile isWS).reverse.dropWhile isWS).reverse := rfl
  rw [hpre] at h
  cases hz : ((l.dropWhile isWS).reverse.dropWhile isWS).reverse with
  | nil => rw [hz] at h; exact absurd h (by simp)
  | cons e t2 =>
    rw [hz] at h
    simp only [List.head?_cons, Option.some.injEq] at h
    rw [hz] at hparts
    have hhead : (l.dropWhile isWS).head? = some e := by
      rw [hparts]
      rfl
    rw [← h]
    exact head?_dropWhile_false isWS l e hhead

theorem pyStripL_idem (l : List Char) : pyStripL (pyStripL l) = pyStripL l := by
  have hltrim : (pyStripL l).dropWhile isWS = pyStripL l := by
    cases hz : pyStripL l with
    | nil => rfl
    | cons d t =>
      have hd : isWS d = false := head?_pyStripL l d (by rw [hz]; rfl)
      simp [List.dropWhile_cons, hd]
  show (((pyStripL l).dropWhile isWS).reverse.dropWhile isWS).reverse = pyStripL l
  rw [hltrim]
  show ((((l.dropWhile isWS).reverse.dropWhile isWS).reverse).reverse.dropWhile isWS).reverse
    = pyStripL l
  rw [List.reverse_reverse, dropWhile_idem]
  rfl

theorem pyStripL_append_nonws (l : List Char) (c : Char) (hc : isWS c = false) :
    pyStripL (pyStripL l ++ [c]) = pyStripL l ++ [c] := by
  have hltrim : (pyStripL l ++ [c]).dropWhile isWS = pyStripL l ++ [c] := by
    cases hz : pyStripL l with
    | nil => simp [List.dropWhile_cons, hc]
    | cons d t =>
      have hd : isWS d = false := head?_pyStripL l d (by rw [hz]; rfl)
      simp [List.dropWhile_cons, hd]
  show (((pyStripL l ++ [c]).dropWhile isWS).reverse.dropWhile isWS).reverse
    = pyStripL l ++ [c]
  rw [hltrim, List.reverse_append]
  simp only [List.reverse_cons, List.reverse_nil, List.nil_append, List.singleton_append]
  rw [List.dropWhile_cons, if_neg (by simp [hc])]
  simp

theorem pyStrip_append_nl (s : String) : pyStrip (s ++ "\n") = pyStrip s := by
  show (⟨pyStripL (s ++ "\n").data⟩ : String) = ⟨pyStripL s.data⟩
  rw [String.data_append]
  show (⟨pyStripL (s.data ++ ['\n'])⟩ : String) = ⟨pyStripL s.data⟩
  rw [pyStripL_append_ws s.data '\n' (by decide)]

theorem pyStrip_pyStrip (s : String) : pyStrip (pyStrip s) = pyStrip s := by
  show (⟨pyStripL (pyStripL s.data)⟩ : String) = ⟨pyStripL s.data⟩
  rw [pyStripL_idem]

theorem pyStrip_strip_semi (s : String) :
    pyStrip (pyStrip s ++ ";") = pyStrip s ++ ";" := by
  have h1 : (pyStrip s ++ ";").data = pyStripL s.data ++ [';'] := by
    rw [String.data_append]
    rfl
  show (⟨pyStripL (pyStrip s ++ ";").data⟩ : String) = pyStrip s ++ ";"
  rw [h1, pyStripL_append_nonws s.data ';' (by decide)]
  show (⟨(pyStrip s).data ++ (";" : String).data⟩ : String) = pyStrip s ++ ";"
  rw [← String.data_append]

theorem pyStrip_pyRstripNL (s : String) : pyStrip (pyRstripNL s) = pyStrip s := by
  obtain ⟨t, hparts, ht⟩ := rtrim_parts (· == '\n') s.data
  have hback : pyStripL s.data = pyStripL (pyRstripNL s).data := by
    conv_lhs => rw [hparts]
    exact pyStripL_append_ws_list t _ (fun c hc => by
      have : c = '\n' := by simpa using ht c hc
      rw [this]
      decide)
  show (⟨pyStripL (pyRstripNL s).data⟩ : String) = ⟨pyStripL s.data⟩
  rw [hback]

/-! ### Re-parsing a rendered import line gives back the same record -/

theorem dropLit_some_append (lit : List Char) :
    ∀ (l x r : List Char), dropLit lit l = some r →
      dropLit lit (l ++ x) = some (r ++ x) := by
  induction lit with
  | nil =>
    intro l x r h
    simp only [dropLit, Option.some.injEq] at h
    subst h
    rfl
  | cons c cs ih =>
    intro l x r h
    cases l with
    | nil => exact absurd h (by simp [dropLit])
    | cons d ds =>
      simp only [dropLit] at h ⊢
      by_cases hcd : (c == d) = true
      · rw [if_pos hcd] at h
        rw [if_pos hcd]
        exact ih ds x r h
      · rw [if_neg hcd] at h
        exact absurd h (by simp)

theorem dropLit_none_append_semi (lit : List Char) (hlit : ∀ c ∈ lit, c ≠ ';') :
    ∀ (l : List Char), dropLit lit l = none →
      dropLit lit (l ++ [';']) = none := by
  induction lit with
  | nil => intro l h; exact absurd h (by simp [dropLit])
  | cons c cs ih =>
    intro l h
    cases l with
    | nil =>
      have hc : (c == ';') = false := by
        simp
        exact hlit c (List.mem_cons_self c cs)
      simp [dropLit, hc]
    | cons d ds =>
      simp only [dropLit] at h ⊢
      by_cases hcd : (c == d) = true
      · rw [if_pos hcd] at h
        rw [if_pos hcd]
        exact ih (fun e he => hlit e (List.mem_cons_of_mem c he)) ds h
      · rw [if_neg hcd]

theorem dropLit_some_head (c : Char) (cs l r : List Char)
    (h : dropLit (c :: cs) l = some r) : ∃ t, l = c :: t ∧ dropLit cs t = some r := by
  cases l with
  | nil => exact absurd h (by simp [dropLit])
  | cons d ds =>
    simp only [dropLit] at h
    by_cases hcd : (c == d) = true
    · rw [if_pos hcd] at h
      have : c = d := by simpa using hcd
      exact ⟨ds, by rw [this], h⟩
    · rw [if_neg hcd] at h
      exact absurd h (by simp)

/-- The part of `importMatch` after the literal `import` has been consumed
(a function of the remaining characters only). -/
def importTail (rest : List Char) : Option (String × String) :=
  let ws1 := rest.takeWhile isWS
  let r1 := rest.dropWhile isWS
  if ws1.isEmpty then none
  else
    let alt1 : Option (String × String) :=
      match dropLit "static".data r1 with
      | none => none
      | some r2 =>
        let ws2 := r2.takeWhile isWS
        let r3 := r2.dropWhile isWS
        if ws2.isEmpty then none
        else
          let path := r3.takeWhile isPathChar
          if path.isEmpty then none
          else some (⟨"import".data ++ ws1 ++ "static".data⟩, ⟨path⟩)
    match alt1 with
    | some res => some res
    | none =>
      let path := r1.takeWhile isPathChar
      if path.isEmpty then none
      else some ("import", ⟨path⟩)

theorem importMatch_eq_tail (s : String) :
    importMatch s =
      match dropLit "import".data s.data with
      | none => none
      | some rest => importTail rest := by
  unfold importMatch importTail
  rfl

theorem importTail_append_semi (rest : List Char) (gp : String × String)
    (h : importTail rest = some gp) : importTail (rest ++ [';']) = some gp := by
  unfold importTail at h ⊢
  simp only [@takeWhile_append_single isWS rest ';' (by decide),
      @dropWhile_append_single isWS rest ';' (by decide)]
  by_cases hws : ((rest.takeWhile isWS).isEmpty = true)
  · rw [if_pos hws] at h
    exact absurd h (by simp)
  · rw [if_neg hws] at h ⊢
    cases hs : dropLit "static".data (rest.dropWhile isWS) with
    | none =>
      have hs2 : dropLit "static".data (rest.dropWhile isWS ++ [';']) = none :=
        dropLit_none_append_semi _ (by decide) _ hs
      simp only [hs] at h
      simp only [hs2, @takeWhile_append_single isPathChar (rest.dropWhile isWS) ';' (by decide)]
      exact h
    | some r2 =>
      have hs2 : dropLit "static".data (rest.dropWhile isWS ++ [';']) = some (r2 ++ [';']) :=
        dropLit_some_append _ _ _ _ hs
      simp only [hs] at h
      simp only [hs2, @takeWhile_append_single isWS r2 ';' (by decide),
          @dropWhile_append_single isWS r2 ';' (by decide)]
      by_cases hws2 : ((r2.takeWhile isWS).isEmpty = true)
      · simp only [if_pos hws2] at h ⊢
        simp only [@takeWhile_append_single isPathChar (rest.dropWhile isWS) ';' (by decide)]
        exact h
      · simp only [if_neg hws2] at h ⊢
        simp only [@takeWhile_append_single isPathChar (r2.dropWhile isWS) ';' (by decide)]
        by_cases hpe : (((r2.dropWhile isWS).takeWhile isPathChar).isEmpty = true)
        · simp only [if_pos hpe] at h ⊢
          simp only [@takeWhile_append_single isPathChar (rest.dropWhile isWS) ';' (by decide)]
          exact h
        · simp only [if_neg hpe] at h ⊢
          exact h

theorem importMatch_append_semi (s : String) (gp : String × String)
    (h : importMatch s = some gp) : importMatch (s ++ ";") = some gp := by
  rw [importMatch_eq_tail] at h
  rw [importMatch_eq_tail, String.data_append,
    show (";" : String).data = [';'] from rfl]
  cases hd : dropLit "import".data s.data with
  | none => rw [hd] at h; exact absurd h (by simp)
  | some rest =>
    rw [hd] at h
    rw [dropLit_some_append _ _ [';'] rest hd]
    exact importTail_append_semi rest gp h

theorem importMatch_head (s : String) (gp : String × String)
    (h : importMatch s = some gp) : ∃ t, s.data = 'i' :: t := by
  rw [importMatch_eq_tail] at h
  cases hd : dropLit "import".data s.data with
  | none => rw [hd] at h; exact absurd h (by simp)
  | some rest =>
    obtain ⟨t, ht, _⟩ := dropLit_some_head 'i' _ s.data rest hd
    exact ⟨t, ht⟩

theorem packageMatch_of_head_i (s : String) (t : List Char)
    (h : s.data = 'i' :: t) : packageMatch s = false := by
  unfold packageMatch
  rw [h]
  rfl

theorem pyStartsWith_slashes_of_head_i (s : String) (t : List Char)
    (h : s.data = 'i' :: t) : pyStartsWith s "//" = false := by
  unfold pyStartsWith
  rw [h]
  rfl

theorem beq_empty_of_head_i (s : String) (t : List Char)
    (h : s.data = 'i' :: t) : (s == "") = false := by
  have hne : s ≠ "" := by
    intro hc
    rw [hc] at h
    exact absurd h (by simp)
  simp [hne]

/-- Scanning the rendered line of a record emitted in the sorted block (a
stripped line with its trailing newline re-attached) classifies it as
an import line and reproduces exactly the same record: the rendered text is
already stripped, still matches the import pattern with the same captures,
and needs no further terminator. -/
theorem record_line_roundtrip (isJava : Bool) (lines : List String) :
    ∀ r ∈ (scanFile isJava lines).imports,
      classifyLine isJava (r.2.2 ++ "\n") = LK.imp r r.2.2 (r.2.1.data.contains '*') := by
  intro r hr
  obtain ⟨s, hrend, hguard, hpkgm, ⟨g1, hmatch, hstatic⟩, i, hi, hsi⟩ :=
    scanFile_imports_shape isJava lines r hr
  have hstrip_s : pyStrip s = s := by
    rw [hsi]
    exact pyStrip_pyStrip _
  obtain ⟨t, hheads⟩ := importMatch_head s _ hmatch
  have hmain : pyStrip (r.2.2 ++ "\n") = r.2.2 ∧
      importMatch r.2.2 = some (g1, r.2.1) ∧
      (∃ t2, r.2.2.data = 'i' :: t2) ∧
      (isJava && !(pyEndsWith r.2.2 ";")) = false := by
    by_cases hc : (isJava && !(pyEndsWith s ";")) = true
    · have hr22 : r.2.2 = s ++ ";" := by rw [hrend, if_pos hc]
      refine ⟨?_, ?_, ?_, ?_⟩
      · rw [hr22, pyStrip_append_nl, hsi]
        exact pyStrip_strip_semi _
      · rw [hr22]
        exact importMatch_append_semi s _ hmatch
      · refine ⟨t ++ [';'], ?_⟩
        rw [hr22, String.data_append, hheads]
        rfl
      · have : pyEndsWith r.2.2 ";" = true := by
          rw [hr22]
          exact pyEndsWith_append_semi s
        rw [this]
        simp
    · have hr22 : r.2.2 = s := by rw [hrend, if_neg hc]
      refine ⟨?_, ?_, ⟨t, by rw [hr22]; exact hheads⟩, ?_⟩
      · rw [hr22, pyStrip_append_nl]
        exact hstrip_s
      · rw [hr22]
        exact hmatch
      · rw [hr22]
        simpa using hc
  obtain ⟨hstrip22, hmatch22, ⟨t2, hhead22⟩, hnoadd⟩ := hmain
  have hne22 : (r.2.2 == "") = false := beq_empty_of_head_i _ _ hhead22
  have hsw22 : pyStartsWith r.2.2 "//" = false := pyStartsWith_slashes_of_head_i _ _ hhead22
  have hpm22 : packageMatch r.2.2 = false := packageMatch_of_head_i _ _ hhead22
  unfold classifyLine
  rw [hstrip22]
  rw [if_neg (by rw [hne22, hsw22]; simp)]
  rw [if_neg (by rw [hpm22]; simp)]
  rw [hmatch22]
  rw [hnoadd]
  have hfin : (g1 == "import static", r.2.1, r.2.2) = r := by
    refine Prod.ext ?_ (Prod.ext rfl rfl)
    exact hstatic.symm
  simp only [Bool.false_eq_true, if_false]
  rw [hfin]

/-! ### Stepping lemmas for the trailing-comment loop -/

theorem presGo_cons_break (l : String) (ls : List String) (idx : Nat)
    (h : pyStrip (pyRstripNL l) ≠ "" ∧ ¬ (pyStartsWith (pyStrip (pyRstripNL l)) "//" = true)) :
    presGo (l :: ls) idx = ([], idx) := by
  unfold presGo
  rw [if_pos h]

theorem presGo_cons_comment (l : String) (ls : List String) (idx : Nat)
    (hne : pyStrip (pyRstripNL l) ≠ "")
    (hsw : pyStartsWith (pyStrip (pyRstripNL l)) "//" = true) :
    presGo (l :: ls) idx =
      (l :: (presGo ls (idx + 1)).1, (presGo ls (idx + 1)).2) := by
  simp only [presGo]
  rw [if_neg (fun hcon => hcon.2 hsw), if_pos hne]

theorem presGo_cons_blank (l : String) (ls : List String) (idx : Nat)
    (hb : pyStrip (pyRstripNL l) = "") :
    presGo (l :: ls) idx = presGo ls (idx + 1) := by
  simp only [presGo]
  rw [if_neg (fun hcon => hcon.1 hb), if_neg (fun hcon => hcon hb)]

theorem presGo_preserved_mem (ls : List String) :
    ∀ (idx : Nat), ∀ l ∈ (presGo ls idx).1,
      pyStrip (pyRstripNL l) ≠ "" ∧
      pyStartsWith (pyStrip (pyRstripNL l)) "//" = true ∧ l ∈ ls := by
  induction ls with
  | nil => intro idx l hl; simp [presGo] at hl
  | cons a t ih =>
    intro idx l hl
    by_cases hb : pyStrip (pyRstripNL a) = ""
    · rw [presGo_cons_blank a t idx hb] at hl
      obtain ⟨h1, h2, h3⟩ := ih (idx + 1) l hl
      exact ⟨h1, h2, List.mem_cons_of_mem a h3⟩
    · by_cases hsw : pyStartsWith (pyStrip (pyRstripNL a)) "//" = true
      · rw [presGo_cons_comment a t idx hb hsw] at hl
        rcases List.mem_cons.mp hl with hl | hl
        · subst hl
          exact ⟨hb, hsw, List.mem_cons_self l t⟩
        · obtain ⟨h1, h2, h3⟩ := ih (idx + 1) l hl
          exact ⟨h1, h2, List.mem_cons_of_mem a h3⟩
      · rw [presGo_cons_break a t idx ⟨hb, hsw⟩] at hl
        simp at hl

theorem presGo_next_spec (ls : List String) :
    ∀ (idx : Nat), ∃ k, k ≤ ls.length ∧ (presGo ls idx).2 = idx + k ∧
      (ls.drop k = [] ∨ ∃ l0 t0, ls.drop k = l0 :: t0 ∧
        pyStrip (pyRstripNL l0) ≠ "" ∧
        ¬ (pyStartsWith (pyStrip (pyRstripNL l0)) "//" = true)) := by
  induction ls with
  | nil => intro idx; exact ⟨0, le_refl _, rfl, Or.inl rfl⟩
  | cons a t ih =>
    intro idx
    by_cases hb : pyStrip (pyRstripNL a) = ""
    · obtain ⟨k, hk, hnext, hdrop⟩ := ih (idx + 1)
      refine ⟨k + 1, by simpa using Nat.succ_le_succ hk, ?_, ?_⟩
      · rw [presGo_cons_blank a t idx hb, hnext]
        omega
      · simpa using hdrop
    · by_cases hsw : pyStartsWith (pyStrip (pyRstripNL a)) "//" = true
      · obtain ⟨k, hk, hnext, hdrop⟩ := ih (idx + 1)
        refine ⟨k + 1, by simpa using Nat.succ_le_succ hk, ?_, ?_⟩
        · rw [presGo_cons_comment a t idx hb hsw, hnext]
          omega
        · simpa using hdrop
      · refine ⟨0, Nat.zero_le _, ?_, Or.inr ⟨a, t, rfl, hb, hsw⟩⟩
        rw [presGo_cons_break a t idx ⟨hb, hsw⟩]
        omega

theorem presGo_comments_prepend (P : List String) :
    ∀ (rest : List String) (idx : Nat),
      (∀ l ∈ P, pyStrip (pyRstripNL l) ≠ "" ∧
        pyStartsWith (pyStrip (pyRstripNL l)) "//" = true) →
      presGo (P ++ rest) idx =
        (P ++ (presGo rest (idx + P.length)).1, (presGo rest (idx + P.length)).2) := by
  induction P with
  | nil =>
    intro rest idx _
    simp
  | cons a t ih =>
    intro rest idx hP
    have ha := hP a (List.mem_cons_self a t)
    rw [List.cons_append, presGo_cons_comment a (t ++ rest) idx ha.1 ha.2,
      ih rest (idx + 1) (fun l hl => hP l (List.mem_cons_of_mem a hl))]
    simp only [List.cons_append, List.length_cons]
    have harith : idx + 1 + t.length = idx + (t.length + 1) := by omega
    rw [harith]

/-! ### Segment lemmas for the second scan -/

theorem segPairs_of_no_imp (isJava : Bool) (ls : List String)
    (h : ∀ l ∈ ls, ∀ r s b, classifyLine isJava l ≠ LK.imp r s b) :
    ∀ idx, segPairs isJava idx ls = [] := by
  induction ls with
  | nil => intro idx; rfl
  | cons a t ih =>
    intro idx
    unfold segPairs
    rw [ih (fun l hl => h l (List.mem_cons_of_mem a hl)) (idx + 1)]
    cases hc : classifyLine isJava a with
    | imp r s b => exact absurd hc (h a (List.mem_cons_self a t) r s b)
    | skip => rfl
    | pkg => rfl
    | other => rfl

theorem segPkg_of_no_pkg (isJava : Bool) (ls : List String)
    (h : ∀ l ∈ ls, classifyLine isJava l ≠ LK.pkg) :
    ∀ idx, segPkg isJava idx ls = none := by
  induction ls with
  | nil => intro idx; rfl
  | cons a t ih =>
    intro idx
    unfold segPkg
    rw [ih (fun l hl => h l (List.mem_cons_of_mem a hl)) (idx + 1)]
    rw [if_neg (h a (List.mem_cons_self a t))]

theorem segPkg_top (isJava : Bool) (ls : List String) :
    ∀ (idx j : Nat) (hj : j < ls.length),
      classifyLine isJava (ls.get ⟨j, hj⟩) = LK.pkg →
      ∃ k, segPkg isJava idx ls = some k ∧ idx + j ≤ k := by
  induction ls with
  | nil => intro idx j hj; simp at hj
  | cons a t ih =>
    intro idx j hj hcl
    unfold segPkg
    cases j with
    | zero =>
      cases hrest : segPkg isJava (idx + 1) t with
      | some k2 =>
        refine ⟨k2, rfl, ?_⟩
        have := segPkg_bounds isJava (idx + 1) t k2 hrest
        omega
      | none =>
        refine ⟨idx, ?_, by omega⟩
        have hcl0 : classifyLine isJava a = LK.pkg := hcl
        rw [if_pos hcl0]
    | succ j2 =>
      have hj2 : j2 < t.length := by simpa using hj
      obtain ⟨k, hk, hle⟩ := ih (idx + 1) j2 hj2 hcl
      rw [hk]
      exact ⟨k, rfl, by omega⟩

theorem segPairs_complete (isJava : Bool) (ls : List String) :
    ∀ (idx j : Nat) (hj : j < ls.length) (r : Rec) (s : String) (b : Bool),
      classifyLine isJava (ls.get ⟨j, hj⟩) = LK.imp r s b →
      (idx + j, r) ∈ segPairs isJava idx ls := by
  induction ls with
  | nil => intro idx j hj; simp at hj
  | cons a t ih =>
    intro idx j hj r s b hcl
    unfold segPairs
    cases j with
    | zero =>
      have hcl0 : classifyLine isJava a = LK.imp r s b := hcl
      rw [hcl0]
      exact List.mem_append_left _ (by simp)
    | succ j2 =>
      have hj2 : j2 < t.length := by simpa using hj
      have := ih (idx + 1) j2 hj2 r s b hcl
      apply List.mem_append_right
      have harith : idx + 1 + j2 = idx + (j2 + 1) := by omega
      rw [← harith]
      exact this

theorem segPairs_pairwise_lt (isJava : Bool) (ls : List String) :
    ∀ idx, List.Pairwise (fun p q : Nat × Rec => p.1 < q.1)
      (segPairs isJava idx ls) := by
  induction ls with
  | nil => intro idx; exact List.Pairwise.nil
  | cons a t ih =>
    intro idx
    unfold segPairs
    cases hc : classifyLine isJava a with
    | imp r s b =>
      simp only [List.singleton_append]
      refine List.Pairwise.cons ?_ (ih (idx + 1))
      intro q hq
      have := segPairs_bounds isJava (idx + 1) t q hq
      simp only
      omega
    | skip => simpa using ih (idx + 1)
    | pkg => simpa using ih (idx + 1)
    | other => simpa using ih (idx + 1)

theorem le_getLast_of_pairwise_lt {L : List (Nat × Rec)}
    (hpw : List.Pairwise (fun p q : Nat × Rec => p.1 < q.1) L) (hne : L ≠ []) :
    ∀ p ∈ L, p.1 ≤ (L.getLast hne).1 := by
  induction L with
  | nil => exact absurd rfl hne
  | cons a t ih =>
    intro p hp
    cases t with
    | nil =>
      simp only [List.mem_singleton] at hp
      subst hp
      exact le_refl _
    | cons b t2 =>
      have htne : (b :: t2) ≠ [] := by simp
      have hlast : (a :: b :: t2).getLast hne = (b :: t2).getLast htne :=
        List.getLast_cons htne
      rw [hlast]
      rcases List.mem_cons.mp hp with hp | hp
      · subst hp
        have hmem := List.getLast_mem htne
        have := (List.pairwise_cons.mp hpw).1 ((b :: t2).getLast htne) hmem
        omega
      · exact ih (List.pairwise_cons.mp hpw).2 htne p hp

theorem importLines_getLastD_eq (isJava : Bool) (lines : List String)
    (hne : segPairs isJava 0 lines ≠ []) :
    (scanFile isJava lines).importLines.getLastD 0 =
      ((segPairs isJava 0 lines).getLast hne).1 := by
  have hmapne : (segPairs isJava 0 lines).map (·.1) ≠ [] := by
    intro hc
    exact hne (List.map_eq_nil_iff.mp hc)
  rw [scanFile_importLines_eq, List.getLastD_eq_getLast?,
    List.getLast?_eq_getLast _ hmapne, Option.getD_some, List.getLast_map]

theorem segPairs_le_lastIdx (isJava : Bool) (lines : List String)
    (hne : segPairs isJava 0 lines ≠ []) :
    ∀ p ∈ segPairs isJava 0 lines, p.1 ≤ lastIdx isJava lines := by
  intro p hp
  unfold lastIdx
  rw [importLines_getLastD_eq isJava lines hne]
  exact le_getLast_of_pairwise_lt (segPairs_pairwise_lt isJava lines 0) hne p hp

/-! ### Newline-terminated files split into newline-terminated lines, and
splitting is inverse to joining -/

theorem readlinesGo_pieces (l : List Char) :
    ∀ (cur : List Char), '\n' ∉ cur →
      (cur = [] ∧ l = [] ∨ (cur.reverse ++ l).getLast? = some '\n') →
      ∀ p ∈ readlinesGo cur l, ∃ s, p = s ++ ['\n'] ∧ '\n' ∉ s := by
  induction l with
  | nil =>
    intro cur hcur hend p hp
    rcases hend with ⟨hc, _⟩ | hend
    · subst hc
      simp [readlinesGo] at hp
    · exfalso
      rw [List.append_nil] at hend
      have hne : cur.reverse ≠ [] := by
        intro hc
        rw [hc] at hend
        simp at hend
      rw [List.getLast?_eq_getLast _ hne] at hend
      have h2 : cur.reverse.getLast hne = '\n' := by
        simpa using hend
      have h3 : '\n' ∈ cur.reverse := h2 ▸ List.getLast_mem hne
      exact hcur (List.mem_reverse.mp h3)
  | cons c rest ih =>
    intro cur hcur hend p hp
    by_cases hc : c = '\n'
    · subst hc
      unfold readlinesGo at hp
      rw [if_pos rfl] at hp
      rcases List.mem_cons.mp hp with hp | hp
      · refine ⟨cur.reverse, ?_, by simpa using hcur⟩
        rw [hp]
        simp
      · apply ih [] (by simp) ?_ p hp
        cases hrest : rest with
        | nil => exact Or.inl ⟨rfl, rfl⟩
        | cons d t =>
          right
          rcases hend with ⟨_, habs⟩ | hend
          · exact absurd habs (by simp)
          · rw [hrest] at hend
            have h1 : (cur.reverse ++ '\n' :: d :: t).getLast? = (d :: t).getLast? := by
              rw [show ('\n' :: d :: t) = ['\n'] ++ (d :: t) from rfl, ← List.append_assoc]
              exact List.getLast?_append_of_ne_nil _ (List.cons_ne_nil d t)
            show (List.reverse [] ++ d :: t).getLast? = some '\n'
            rw [List.reverse_nil, List.nil_append, ← h1]
            exact hend
    · unfold readlinesGo at hp
      rw [if_neg hc] at hp
      apply ih (c :: cur) ?_ ?_ p hp
      · intro hmem
        rcases List.mem_cons.mp hmem with h2 | h2
        · exact hc h2.symm
        · exact hcur h2
      · right
        rcases hend with ⟨_, habs⟩ | hend
        · exact absurd habs (by simp)
        · have heq : ((c :: cur).reverse ++ rest) = cur.reverse ++ (c :: rest) := by
            simp
          rw [heq]
          exact hend

/-- Newline-terminated (or empty) content splits into lines that each end
with exactly one newline. -/
theorem pyReadlines_WF (content : String)
    (hNL : content.data = [] ∨ content.data.getLast? = some '\n') :
    ∀ l ∈ pyReadlines content, ∃ s, l.data = s ++ ['\n'] ∧ '\n' ∉ s := by
  intro l hl
  have hld := pyReadlines_data_mem hl
  apply readlinesGo_pieces content.data [] (by simp) ?_ l.data hld
  rcases hNL with h | h
  · exact Or.inl ⟨rfl, h⟩
  · right
    rw [List.reverse_nil, List.nil_append]
    exact h

theorem readlinesGo_seg (s : List Char) :
    ∀ (cur t : List Char), '\n' ∉ s →
      readlinesGo cur (s ++ '\n' :: t) =
        (cur.reverse ++ s ++ ['\n']) :: readlinesGo [] t := by
  induction s with
  | nil =>
    intro cur t _
    rw [List.nil_append]
    simp only [readlinesGo]
    simp
  | cons c s2 ih =>
    intro cur t hnl
    have hc : ¬ (c = '\n') := by
      intro hc
      exact hnl (hc ▸ List.mem_cons_self c s2)
    rw [List.cons_append]
    simp only [readlinesGo]
    rw [if_neg hc, ih (c :: cur) t (fun hm => hnl (List.mem_cons_of_mem c hm))]
    simp

theorem readlinesGo_of_WF :
    ∀ (pieces : List (List Char)),
      (∀ p ∈ pieces, ∃ s, p = s ++ ['\n'] ∧ '\n' ∉ s) →
      readlinesGo [] pieces.flatten = pieces := by
  intro pieces
  induction pieces with
  | nil => intro _; rfl
  | cons p rest ih =>
    intro h
    obtain ⟨s, hps, hnl⟩ := h p (List.mem_cons_self p rest)
    rw [List.flatten_cons, hps]
    have : (s ++ ['\n']) ++ rest.flatten = s ++ '\n' :: rest.flatten := by
      simp
    rw [this, readlinesGo_seg s [] rest.flatten hnl,
      ih (fun q hq => h q (List.mem_cons_of_mem p hq))]
    simp

/-- Joining well-formed lines and splitting again is the identity. -/
theorem pyReadlines_join_inv (out : List String)
    (hWF : ∀ l ∈ out, ∃ s, l.data = s ++ ['\n'] ∧ '\n' ∉ s) :
    pyReadlines (String.join out) = out := by
  unfold pyReadlines
  rw [data_join, readlinesGo_of_WF (out.map String.data) ?_]
  · rw [List.map_map]
    have hid : ∀ a ∈ out, ((fun l => (⟨l⟩ : String)) ∘ String.data) a = id a := by
      intro a _
      rfl
    rw [List.map_congr_left hid, List.map_id]
  · intro p hp
    obtain ⟨l, hl, hpl⟩ := List.mem_map.mp hp
    obtain ⟨s, hs, hnl⟩ := hWF l hl
    exact ⟨s, by rw [← hpl, hs], hnl⟩

/-! ### The emitted block of a nonempty record list -/

theorem sortImports_ne_nil (imports : List Rec) (hne : imports ≠ [])
    (hNE : ∀ r ∈ imports, r.2.2 ≠ "") : sortImports imports ≠ [] := by
  intro hc
  have hperm := sortImports_filter_perm imports hNE
  rw [hc] at hperm
  have h2 : imports.map (fun r => r.2.2) = [] := (List.Perm.symm hperm).eq_nil
  exact hne (List.map_eq_nil_iff.mp h2)

theorem sortImports_head_ne (imports : List Rec)
    (hNE : ∀ r ∈ imports, r.2.2 ≠ "") :
    ∀ s, (sortImports imports).head? = some s → s ≠ "" := by
  intro s hs
  have hstruct := sortImports_structure imports
  obtain ⟨t, hsplit, _⟩ := dropTrailingEmpties_spec
    ((groupKeys.map (groupSeg imports)).flatten)
  have hne : sortImports imports ≠ [] := by
    intro hc
    rw [hc] at hs
    exact absurd hs (by simp)
  have hF : ((groupKeys.map (groupSeg imports)).flatten).head? = some s := by
    rw [hsplit, List.head?_append_of_ne_nil _ (by rw [← hstruct]; exact hne)]
    rw [← hstruct]
    exact hs
  exact (chain'_flatten_segs _ (fun seg hseg => by
    obtain ⟨g, _, hgs⟩ := List.mem_map.mp hseg
    rw [← hgs]
    exact groupSeg_shape imports hNE g)).2 s hF

/-- The record reconstructed from an emitted line (with its newline), when
that line is an import line. -/
def recOfLine (isJava : Bool) (s : String) : Option Rec :=
  match classifyLine isJava (s ++ "\n") with
  | LK.imp r _ _ => some r
  | _ => none

theorem recOfLine_of_record (isJava : Bool) (lines : List String) :
    ∀ r ∈ (scanFile isJava lines).imports, recOfLine isJava r.2.2 = some r := by
  intro r hr
  unfold recOfLine
  rw [record_line_roundtrip isJava lines r hr]

theorem classifyLine_newline (isJava : Bool) : classifyLine isJava "\n" = LK.skip := by
  rfl

theorem empty_append_nl : ("" : String) ++ "\n" = "\n" := by
  rfl

theorem filterMap_filter_of_none {α β : Type} (f : α → Option β) (p : α → Bool)
    (l : List α) (h : ∀ a ∈ l, p a = false → f a = none) :
    (l.filter p).filterMap f = l.filterMap f := by
  induction l with
  | nil => rfl
  | cons a t ih =>
    by_cases hp : p a = true
    · rw [List.filter_cons_of_pos hp, List.filterMap_cons, List.filterMap_cons,
        ih (fun b hb => h b (List.mem_cons_of_mem a hb))]
    · have hpf : p a = false := by simpa using hp
      rw [List.filter_cons_of_neg (by simp [hpf]), List.filterMap_cons,
        h a (List.mem_cons_self a t) hpf,
        ih (fun b hb => h b (List.mem_cons_of_mem a hb))]

theorem filterMap_eq_map_of_some {α β : Type} (f : α → Option β) (g : α → β)
    (l : List α) (h : ∀ a ∈ l, f a = some (g a)) :
    l.filterMap f = l.map g := by
  induction l with
  | nil => rfl
  | cons a t ih =>
    rw [List.filterMap_cons, h a (List.mem_cons_self a t), List.map_cons,
      ih (fun b hb => h b (List.mem_cons_of_mem a hb))]

/-- The output of `sort_imports` depends only on the multiset of records. -/
theorem sortImports_perm (i1 i2 : List Rec) (hp : i1.Perm i2) :
    sortImports i1 = sortImports i2 := by
  have hbg : ∀ g, pySorted (buildGroups i1 g) = pySorted (buildGroups i2 g) := by
    intro g
    have hperm : (buildGroups i1 g).Perm (buildGroups i2 g) := by
      rw [buildGroups_apply, buildGroups_apply]
      exact (hp.filter _).map _
    apply List.eq_of_perm_of_sorted
      (((List.perm_insertionSort pairRel _).trans hperm).trans
        (List.perm_insertionSort pairRel _).symm)
      (List.sorted_insertionSort pairRel _)
      (List.sorted_insertionSort pairRel _)
  have hseg : ∀ g, groupSeg i1 g = groupSeg i2 g := by
    intro g
    unfold groupSeg groupLines
    have hlen : (buildGroups i1 g).length = (buildGroups i2 g).length := by
      have hperm : (buildGroups i1 g).Perm (buildGroups i2 g) := by
        rw [buildGroups_apply, buildGroups_apply]
        exact (hp.filter _).map _
      exact hperm.length_eq
    by_cases he : buildGroups i1 g = []
    · have he2 : buildGroups i2 g = [] := by
        rw [he] at hlen
        exact List.eq_nil_of_length_eq_zero hlen.symm
      rw [if_pos he, if_pos he2]
    · have he2 : buildGroups i2 g ≠ [] := by
        intro hc
        rw [hc] at hlen
        exact he (List.eq_nil_of_length_eq_zero hlen)
      rw [if_neg he, if_neg he2, hbg g]
  rw [sortImports_structure, sortImports_structure,
    List.map_congr_left (fun g _ => hseg g)]

/-! ### Scanning the reassembled file -/

theorem segPairs_map_block (isJava : Bool) (bs : List String)
    (h : ∀ s ∈ bs, s = "" ∨ ∃ r, classifyLine isJava (s ++ "\n") =
      LK.imp r s (r.2.1.data.contains '*') ∧ r.2.2 = s) :
    ∀ idx, (segPairs isJava idx (bs.map (· ++ "\n"))).map (·.2) =
      bs.filterMap (recOfLine isJava) := by
  induction bs with
  | nil => intro idx; rfl
  | cons s t ih =>
    intro idx
    rw [List.map_cons, List.filterMap_cons]
    show ((match classifyLine isJava (s ++ "\n") with
      | LK.imp r _ _ => [(idx, r)]
      | _ => []) ++ segPairs isJava (idx + 1) (t.map (· ++ "\n"))).map (·.2) = _
    rcases h s (List.mem_cons_self s t) with hs | ⟨r, hcl, _⟩
    · subst hs
      rw [empty_append_nl, classifyLine_newline]
      have hro : recOfLine isJava "" = none := by
        unfold recOfLine
        rw [empty_append_nl, classifyLine_newline]
      rw [hro]
      simpa using ih (fun q hq => h q (List.mem_cons_of_mem _ hq)) (idx + 1)
    · rw [hcl]
      have hro : recOfLine isJava s = some r := by
        unfold recOfLine
        rw [hcl]
      rw [hro]
      simp only [List.singleton_append, List.map_cons]
      rw [ih (fun q hq => h q (List.mem_cons_of_mem _ hq)) (idx + 1)]

theorem segPairs_block_head (isJava : Bool) (s0 : String) (bs : List String)
    (r : Rec) (h0 : classifyLine isJava (s0 ++ "\n") =
      LK.imp r s0 (r.2.1.data.contains '*')) (idx : Nat) :
    segPairs isJava idx ((s0 :: bs).map (· ++ "\n")) =
      (idx, r) :: segPairs isJava (idx + 1) (bs.map (· ++ "\n")) := by
  rw [List.map_cons]
  show (match classifyLine isJava (s0 ++ "\n") with
    | LK.imp r _ _ => [(idx, r)]
    | _ => []) ++ segPairs isJava (idx + 1) (bs.map (· ++ "\n")) = _
  rw [h0]
  rfl

theorem segPairs_block_last (isJava : Bool) (bs : List String) (hne : bs ≠ [])
    (r : Rec) (hlast : classifyLine isJava (bs.getLast hne ++ "\n") =
      LK.imp r (bs.getLast hne) (r.2.1.data.contains '*')) (idx : Nat) :
    (segPairs isJava idx (bs.map (· ++ "\n"))).getLast? =
      some (idx + bs.length - 1, r) := by
  conv_lhs => rw [← List.dropLast_append_getLast hne]
  rw [List.map_append, segPairs_append]
  have hsingle : segPairs isJava (idx + (bs.dropLast.map (· ++ "\n")).length)
      ([bs.getLast hne].map (· ++ "\n")) =
      [(idx + bs.dropLast.length, r)] := by
    rw [List.map_singleton]
    show (match classifyLine isJava (bs.getLast hne ++ "\n") with
      | LK.imp r _ _ => [(idx + (bs.dropLast.map (· ++ "\n")).length, r)]
      | _ => []) ++ segPairs isJava (idx + (bs.dropLast.map (· ++ "\n")).length + 1) [] = _
    rw [hlast]
    simp [List.length_map, segPairs]
  rw [hsingle, List.getLast?_concat]
  have : bs.dropLast.length = bs.length - 1 := List.length_dropLast bs
  rw [this]
  congr 2
  have hlen : 1 ≤ bs.length := by
    cases bs with
    | nil => exact absurd rfl hne
    | cons a t => simp
  omega

theorem segPkg_block (isJava : Bool) (bs : List String)
    (h : ∀ s ∈ bs, s = "" ∨ ∃ r, classifyLine isJava (s ++ "\n") =
      LK.imp r s (r.2.1.data.contains '*') ∧ r.2.2 = s) :
    ∀ idx, segPkg isJava idx (bs.map (· ++ "\n")) = none := by
  intro idx
  apply segPkg_of_no_pkg
  intro l hl
  obtain ⟨s, hs, hsl⟩ := List.mem_map.mp hl
  rcases h s hs with hse | ⟨r, hcl, _⟩
  · rw [← hsl, hse, empty_append_nl, classifyLine_newline]
    simp
  · rw [← hsl, hcl]
    simp

theorem comment_classify_skip (isJava : Bool) (l : String)
    (hsw : pyStartsWith (pyStrip (pyRstripNL l)) "//" = true) :
    classifyLine isJava l = LK.skip := by
  unfold classifyLine
  have hsw2 : pyStartsWith (pyStrip l) "//" = true := by
    rw [← pyStrip_pyRstripNL]
    exact hsw
  rw [if_pos (by rw [hsw2]; simp)]

theorem blank_classify_skip (isJava : Bool) (l : String)
    (hb : pyStrip l = "") :
    classifyLine isJava l = LK.skip := by
  unfold classifyLine
  rw [if_pos (by rw [hb]; simp)]

theorem prefix_segPairs_nil (isJava : Bool) (lines : List String) (n : Nat)
    (himp : (scanFile isJava lines).imports ≠ [])
    (hfirst : n ≤ firstIdx isJava lines) :
    segPairs isJava 0 (lines.take n) = [] := by
  cases hsp : segPairs isJava 0 (lines.take n) with
  | nil => rfl
  | cons q t =>
    exfalso
    have hfull : segPairs isJava 0 lines =
        q :: (t ++ segPairs isJava (0 + (lines.take n).length) (lines.drop n)) := by
      conv_lhs => rw [← List.take_append_drop n lines]
      rw [segPairs_append, hsp]
      simp
    have hfirstval : firstIdx isJava lines = q.1 := by
      unfold firstIdx
      rw [scanFile_importLines_eq, hfull]
      rfl
    have hbound := segPairs_bounds isJava 0 (lines.take n) q
      (by rw [hsp]; exact List.mem_cons_self q t)
    have hlen : (lines.take n).length ≤ n := by
      rw [List.length_take]
      omega
    omega

theorem prefix_segPkg_eq (isJava : Bool) (lines : List String) (k : Nat)
    (hfull : segPkg isJava 0 lines = some k) (hk : k + 1 ≤ lines.length) :
    segPkg isJava 0 (lines.take (k + 1)) = some k := by
  have hlen : (lines.take (k + 1)).length = k + 1 := by
    rw [List.length_take]
    omega
  have happ := segPkg_append isJava 0 (lines.take (k + 1)) (lines.drop (k + 1))
  rw [List.take_append_drop, hfull, hlen] at happ
  cases hd : segPkg isJava (0 + (k + 1)) (lines.drop (k + 1)) with
  | some k2 =>
    exfalso
    rw [hd] at happ
    have hb := segPkg_bounds isJava (0 + (k + 1)) (lines.drop (k + 1)) k2 hd
    have : k = k2 := by
      have := happ
      simpa using this
    omega
  | none =>
    rw [hd] at happ
    exact happ.symm

theorem body_no_imp (isJava : Bool) (lines : List String) (n : Nat)
    (himp : (scanFile isJava lines).imports ≠ [])
    (hgt : lastIdx isJava lines < n) :
    ∀ l ∈ lines.drop n, ∀ r s b, classifyLine isJava l ≠ LK.imp r s b := by
  intro l hl r s b hcl
  obtain ⟨⟨j, hj⟩, hget⟩ := List.mem_iff_get.mp hl
  rw [← hget] at hcl
  have hget2 : (lines.drop n).get ⟨j, hj⟩ =
      lines.get ⟨n + j, by have := hj; simp only [List.length_drop] at this; omega⟩ := by
    rw [List.get_drop]
  rw [hget2] at hcl
  have hmem := segPairs_complete isJava lines 0 (n + j) _ r s b hcl
  have hsne : segPairs isJava 0 lines ≠ [] := segPairs_ne_nil_of_imports isJava lines himp
  have hle := segPairs_le_lastIdx isJava lines hsne (0 + (n + j), r) hmem
  simp only at hle
  omega

theorem body_no_pkg (isJava : Bool) (lines : List String) (n : Nat) (k : Nat)
    (hfull : segPkg isJava 0 lines = some k) (hlt : k < n) :
    ∀ l ∈ lines.drop n, classifyLine isJava l ≠ LK.pkg := by
  intro l hl hcl
  obtain ⟨⟨j, hj⟩, hget⟩ := List.mem_iff_get.mp hl
  rw [← hget] at hcl
  have hget2 : (lines.drop n).get ⟨j, hj⟩ =
      lines.get ⟨n + j, by have := hj; simp only [List.length_drop] at this; omega⟩ := by
    rw [List.get_drop]
  rw [hget2] at hcl
  obtain ⟨k2, hk2, hle⟩ := segPkg_top isJava lines 0 (n + j) _ hcl
  rw [hfull] at hk2
  cases hk2
  omega

theorem body_no_pkg_of_none (isJava : Bool) (lines : List String) (n : Nat)
    (hfull : segPkg isJava 0 lines = none) :
    ∀ l ∈ lines.drop n, classifyLine isJava l ≠ LK.pkg := by
  intro l hl hcl
  obtain ⟨⟨j, hj⟩, hget⟩ := List.mem_iff_get.mp hl
  rw [← hget] at hcl
  have hget2 : (lines.drop n).get ⟨j, hj⟩ =
      lines.get ⟨n + j, by have := hj; simp only [List.length_drop] at this; omega⟩ := by
    rw [List.get_drop]
  rw [hget2] at hcl
  obtain ⟨k2, hk2, _⟩ := segPkg_top isJava lines 0 (n + j) _ hcl
  rw [hfull] at hk2
  exact absurd hk2 (by simp)

theorem mem_pyStripL (l : List Char) : ∀ c ∈ pyStripL l, c ∈ l := by
  intro c hc
  obtain ⟨a, b, hparts⟩ := pyStripL_parts l
  rw [hparts]
  exact List.mem_append_left _ (List.mem_append_right _ hc)

theorem rendered_no_newline (isJava : Bool) (lines : List String)
    (hWF : ∀ l ∈ lines, ∃ s, l.data = s ++ ['\n'] ∧ '\n' ∉ s) :
    ∀ r ∈ (scanFile isJava lines).imports, '\n' ∉ r.2.2.data := by
  intro r hr hmem
  obtain ⟨s, hrend, _, _, _, i, hi, hs⟩ := scanFile_imports_shape isJava lines r hr
  have hmem2 : '\n' ∈ s.data := by
    rw [hrend] at hmem
    by_cases hc : (isJava && !(pyEndsWith s ";")) = true
    · rw [if_pos hc, data_append_semi] at hmem
      rcases List.mem_append.mp hmem with h | h
      · exact h
      · simp at h
    · rw [if_neg hc] at hmem
      exact hmem
  obtain ⟨t, hdata, hnin⟩ := hWF (lines.get ⟨i, hi⟩) (List.get_mem lines i hi)
  have hsdata : s.data = pyStripL t := by
    rw [hs]
    show pyStripL (lines.get ⟨i, hi⟩).data = pyStripL t
    rw [hdata, pyStripL_append_ws t '\n' (by decide)]
  rw [hsdata] at hmem2
  exact hnin (mem_pyStripL t '\n' hmem2)

theorem transform_WF (isJava : Bool) (lines : List String)
    (hWF : ∀ l ∈ lines, ∃ s, l.data = s ++ ['\n'] ∧ '\n' ∉ s) :
    ∀ out, transform isJava lines = some out →
      ∀ l ∈ out, ∃ s, l.data = s ++ ['\n'] ∧ '\n' ∉ s := by
  intro out hout l hl
  by_cases himp : (scanFile isJava lines).imports = []
  · simp [transform, himp] at hout
  · rw [transform_eq isJava lines himp] at hout
    have hWFnl : ∃ s, ("\n" : String).data = s ++ ['\n'] ∧ '\n' ∉ s :=
      ⟨[], rfl, by simp⟩
    have hWFblock : ∀ q ∈ (sortImports (scanFile isJava lines).imports).map (· ++ "\n"),
        ∃ s, q.data = s ++ ['\n'] ∧ '\n' ∉ s := by
      intro q hq
      obtain ⟨s0, hs0, hq2⟩ := List.mem_map.mp hq
      rcases mem_sortImports hs0 with he | ⟨r, hr, hse⟩
      · refine ⟨[], ?_, by simp⟩
        rw [← hq2, he]
        rfl
      · refine ⟨s0.data, ?_, ?_⟩
        · rw [← hq2, String.data_append]
        · rw [hse]
          exact rendered_no_newline isJava lines hWF r hr
    have hWFpres : ∀ q ∈ (presOf isJava lines).1, ∃ s, q.data = s ++ ['\n'] ∧ '\n' ∉ s := by
      intro q hq
      have hmem := (presGo_preserved_mem _ _ q hq).2.2
      exact hWF q (List.mem_of_mem_drop hmem)
    by_cases hpkg : (scanFile isJava lines).packageIdx ≠ -1
    · rw [if_pos hpkg] at hout
      cases hout
      rcases List.mem_append.mp hl with hl | hl
      · rcases List.mem_append.mp hl with hl | hl
        · rcases List.mem_append.mp hl with hl | hl
          · rcases List.mem_append.mp hl with hl | hl
            · exact hWF l (List.mem_of_mem_take hl)
            · simp only [List.mem_singleton] at hl
              subst hl
              exact hWFnl
          · exact hWFblock l hl
        · rcases List.mem_append.mp hl with hl | hl
          · exact hWFpres l hl
          · simp only [List.mem_singleton] at hl
            subst hl
            exact hWFnl
      · exact hWF l (List.mem_of_mem_drop hl)
    · rw [if_neg hpkg] at hout
      cases hout
      rcases List.mem_append.mp hl with hl | hl
      · rcases List.mem_append.mp hl with hl | hl
        · rcases List.mem_append.mp hl with hl | hl
          · exact hWF l (List.mem_of_mem_take hl)
          · exact hWFblock l hl
        · rcases List.mem_append.mp hl with hl | hl
          · exact hWFpres l hl
          · simp only [List.mem_singleton] at hl
            subst hl
            exact hWFnl
      · exact hWF l (List.mem_of_mem_drop hl)

theorem sortImports_getLast_ne (imports : List Rec) (hne : sortImports imports ≠ []) :
    (sortImports imports).getLast hne ≠ "" := by
  intro hc
  apply dropTrailingEmpties_getLast? ((groupKeys.map (groupSeg imports)).flatten)
  rw [← sortImports_structure, List.getLast?_eq_getLast _ hne, hc]

theorem sortImports_mem_block (isJava : Bool) (lines : List String) :
    ∀ s ∈ sortImports (scanFile isJava lines).imports,
      s = "" ∨ ∃ r, classifyLine isJava (s ++ "\n") =
        LK.imp r s (r.2.1.data.contains '*') ∧ r.2.2 = s := by
  intro s hs
  rcases mem_sortImports hs with he | ⟨r, hr, hse⟩
  · exact Or.inl he
  · right
    refine ⟨r, ?_, hse.symm⟩
    rw [hse]
    exact record_line_roundtrip isJava lines r hr

theorem filterMap_map_of_some {α β : Type} (f : α → β) (g : β → Option α)
    (l : List α) (h : ∀ a ∈ l, g (f a) = some a) :
    (l.map f).filterMap g = l := by
  induction l with
  | nil => rfl
  | cons a t ih =>
    rw [List.map_cons, List.filterMap_cons, h a (List.mem_cons_self a t),
      ih (fun b hb => h b (List.mem_cons_of_mem a hb))]

theorem block_filterMap_perm (isJava : Bool) (I : List Rec)
    (hne : ∀ r ∈ I, r.2.2 ≠ "")
    (hro : ∀ r ∈ I, recOfLine isJava r.2.2 = some r) :
    ((sortImports I).filterMap (recOfLine isJava)).Perm I := by
  have h1 : ((sortImports I).filter (fun s => s != "")).filterMap
      (recOfLine isJava) = (sortImports I).filterMap (recOfLine isJava) := by
    apply filterMap_filter_of_none
    intro a _ ha
    have hae : a = "" := by simpa using ha
    subst hae
    unfold recOfLine
    rw [empty_append_nl, classifyLine_newline]
  rw [← h1]
  have h2 := (sortImports_filter_perm I hne).filterMap (recOfLine isJava)
  have h3 : (I.map (fun r => r.2.2)).filterMap (recOfLine isJava) = I :=
    filterMap_map_of_some (fun r => r.2.2) (recOfLine isJava) I hro
  rw [h3] at h2
  exact h2

theorem segPairs_cons_skip (isJava : Bool) (l : String) (X : List String)
    (idx : Nat) (h : classifyLine isJava l = LK.skip) :
    segPairs isJava idx (l :: X) = segPairs isJava (idx + 1) X := by
  show (match classifyLine isJava l with
    | LK.imp r _ _ => [(idx, r)]
    | _ => []) ++ segPairs isJava (idx + 1) X = segPairs isJava (idx + 1) X
  rw [h]
  rfl

theorem segPkg_cons_skip (isJava : Bool) (l : String) (X : List String)
    (idx : Nat) (h : classifyLine isJava l = LK.skip) :
    segPkg isJava idx (l :: X) = segPkg isJava (idx + 1) X := by
  show (match segPkg isJava (idx + 1) X with
    | some k => some k
    | none => if classifyLine isJava l = LK.pkg then some idx else none) =
      segPkg isJava (idx + 1) X
  cases hrest : segPkg isJava (idx + 1) X with
  | some k => rfl
  | none =>
    show (if classifyLine isJava l = LK.pkg then some idx else none) = none
    rw [if_neg (by rw [h]; simp)]

theorem mid_scan (isJava : Bool) (block P D : List String) (idx : Nat)
    (hblock : ∀ s ∈ block, s = "" ∨ ∃ r, classifyLine isJava (s ++ "\n") =
      LK.imp r s (r.2.1.data.contains '*') ∧ r.2.2 = s)
    (hP : ∀ l ∈ P, classifyLine isJava l = LK.skip)
    (hD : ∀ l ∈ D, ∀ r s b, classifyLine isJava l ≠ LK.imp r s b)
    (hDp : ∀ l ∈ D, classifyLine isJava l ≠ LK.pkg) :
    segPairs isJava idx (block.map (· ++ "\n") ++ ((P ++ ["\n"]) ++ D)) =
      segPairs isJava idx (block.map (· ++ "\n")) ∧
    segPkg isJava idx (block.map (· ++ "\n") ++ ((P ++ ["\n"]) ++ D)) = none := by
  have htail_imp : ∀ l ∈ (P ++ ["\n"]) ++ D, ∀ r s b,
      classifyLine isJava l ≠ LK.imp r s b := by
    intro l hl r s b
    rcases List.mem_append.mp hl with hl | hl
    · rcases List.mem_append.mp hl with hl | hl
      · rw [hP l hl]
        simp
      · simp only [List.mem_singleton] at hl
        subst hl
        rw [classifyLine_newline]
        simp
    · exact hD l hl r s b
  have htail_pkg : ∀ l ∈ (P ++ ["\n"]) ++ D, classifyLine isJava l ≠ LK.pkg := by
    intro l hl
    rcases List.mem_append.mp hl with hl | hl
    · rcases List.mem_append.mp hl with hl | hl
      · rw [hP l hl]
        simp
      · simp only [List.mem_singleton] at hl
        subst hl
        rw [classifyLine_newline]
        simp
    · exact hDp l hl
  constructor
  · rw [segPairs_append,
      segPairs_of_no_imp isJava _ htail_imp _, List.append_nil]
  · rw [segPkg_append, segPkg_of_no_pkg isJava _ htail_pkg _]
    exact segPkg_block isJava block hblock idx

/-! ### Idempotence of the transformation -/

/-- The reconstructed line list of `process_file` in the
package-declaration case (source lines 165-172). -/
def outPkg (isJava : Bool) (lines : List String) : List String :=
  lines.take ((scanFile isJava lines).packageIdx.toNat + 1) ++ ["\n"]
    ++ (sortImports (scanFile isJava lines).imports).map (· ++ "\n")
    ++ ((presOf isJava lines).1 ++ ["\n"])
    ++ lines.drop (presOf isJava lines).2

/-- The reconstructed line list of `process_file` when no package
declaration was found (source lines 173-179). -/
def outNoPkg (isJava : Bool) (lines : List String) : List String :=
  lines.take (firstIdx isJava lines)
    ++ (sortImports (scanFile isJava lines).imports).map (· ++ "\n")
    ++ ((presOf isJava lines).1 ++ ["\n"])
    ++ lines.drop (presOf isJava lines).2

theorem transform_eq_pkg (isJava : Bool) (lines : List String)
    (himp : ¬ (scanFile isJava lines).imports = [])
    (hpkg : (scanFile isJava lines).packageIdx ≠ -1) :
    transform isJava lines = some (outPkg isJava lines) := by
  rw [transform_eq isJava lines himp, if_pos hpkg]
  rfl

theorem transform_eq_nopkg (isJava : Bool) (lines : List String)
    (himp : ¬ (scanFile isJava lines).imports = [])
    (hpkg : (scanFile isJava lines).packageIdx = -1) :
    transform isJava lines = some (outNoPkg isJava lines) := by
  rw [transform_eq isJava lines himp, if_neg (by rw [hpkg]; exact fun h => h rfl)]
  rfl

theorem firstIdx_le_lastIdx (isJava : Bool) (lines : List String)
    (himp : (scanFile isJava lines).imports ≠ []) :
    firstIdx isJava lines ≤ lastIdx isJava lines := by
  have hne := segPairs_ne_nil_of_imports isJava lines himp
  cases hc : segPairs isJava 0 lines with
  | nil => exact absurd hc hne
  | cons p t =>
    have hmem : p ∈ segPairs isJava 0 lines := by
      rw [hc]
      exact List.mem_cons_self p t
    have h1 : firstIdx isJava lines = p.1 := by
      unfold firstIdx
      rw [scanFile_importLines_eq, hc]
      rfl
    have h2 := segPairs_le_lastIdx isJava lines hne p hmem
    omega

theorem prefix_segPkg_none (isJava : Bool) (lines : List String) (n : Nat)
    (hfull : segPkg isJava 0 lines = none) :
    segPkg isJava 0 (lines.take n) = none := by
  have happ := segPkg_append isJava 0 (lines.take n) (lines.drop n)
  rw [List.take_append_drop, hfull] at happ
  cases hd : segPkg isJava (0 + (lines.take n).length) (lines.drop n) with
  | some k2 =>
    rw [hd] at happ
    simp at happ
  | none =>
    rw [hd] at happ
    exact happ.symm

theorem presD_cases (isJava : Bool) (lines : List String) :
    lastIdx isJava lines < (presOf isJava lines).2 ∧
    (lines.drop (presOf isJava lines).2 = [] ∨
      ∃ l0 t0, lines.drop (presOf isJava lines).2 = l0 :: t0 ∧
        pyStrip (pyRstripNL l0) ≠ "" ∧
        ¬ (pyStartsWith (pyStrip (pyRstripNL l0)) "//" = true)) := by
  obtain ⟨kk, hkk, hnexteq, hbreak⟩ :=
    presGo_next_spec (lines.drop (lastIdx isJava lines + 1)) (lastIdx isJava lines + 1)
  have hnextval : (presOf isJava lines).2 = lastIdx isJava lines + 1 + kk := hnexteq
  have hDdrop : lines.drop (presOf isJava lines).2 =
      (lines.drop (lastIdx isJava lines + 1)).drop kk := by
    rw [hnextval, List.drop_drop]
  refine ⟨by omega, ?_⟩
  rw [hDdrop]
  exact hbreak

/-- Scanning any list reassembled in the shape produced by `process_file`
— an import-free prefix, the rendered sorted block, the preserved
comments, a blank line, and the original body — recovers the same
records, the same sorted block, and the same trailing regions. -/
theorem reassembled_scan_facts (isJava : Bool) (lines A0 OUT : List String)
    (himp : (scanFile isJava lines).imports ≠ [])
    (hOUT : OUT = A0 ++
      ((sortImports (scanFile isJava lines).imports).map (· ++ "\n") ++
        (((presOf isJava lines).1 ++ ["\n"]) ++ lines.drop (presOf isJava lines).2)))
    (hA0pairs : segPairs isJava 0 A0 = [])
    (hDpkg : ∀ l ∈ lines.drop (presOf isJava lines).2,
      classifyLine isJava l ≠ LK.pkg) :
    (scanFile isJava OUT).imports ≠ [] ∧
    sortImports (scanFile isJava OUT).imports =
      sortImports (scanFile isJava lines).imports ∧
    segPkg isJava 0 OUT = segPkg isJava 0 A0 ∧
    (scanFile isJava OUT).importLines.headD 0 = A0.length ∧
    lastIdx isJava OUT =
      A0.length + (sortImports (scanFile isJava lines).imports).length - 1 ∧
    presOf isJava OUT = ((presOf isJava lines).1,
      lastIdx isJava OUT + 1 + (presOf isJava lines).1.length + 1) ∧
    OUT.take A0.length = A0 ∧
    OUT.drop (presOf isJava OUT).2 = lines.drop (presOf isJava lines).2 := by
  have hNEr := scanFile_rendered_ne_empty isJava lines
  have hblockm := sortImports_mem_block isJava lines
  have hbne : sortImports (scanFile isJava lines).imports ≠ [] :=
    sortImports_ne_nil _ himp hNEr
  obtain ⟨s0, bs, hbcons⟩ : ∃ s0 bs,
      sortImports (scanFile isJava lines).imports = s0 :: bs := by
    cases hB : sortImports (scanFile isJava lines).imports with
    | nil => exact absurd hB hbne
    | cons a t => exact ⟨a, t, rfl⟩
  have hs0ne : s0 ≠ "" := sortImports_head_ne _ hNEr s0 (by rw [hbcons]; rfl)
  obtain ⟨r0, hr0⟩ : ∃ r0, classifyLine isJava (s0 ++ "\n") =
      LK.imp r0 s0 (r0.2.1.data.contains '*') := by
    rcases hblockm s0 (by rw [hbcons]; exact List.mem_cons_self s0 bs) with
      he | ⟨r0, hcl, _⟩
    · exact absurd he hs0ne
    · exact ⟨r0, hcl⟩
  have hglne := sortImports_getLast_ne (scanFile isJava lines).imports hbne
  obtain ⟨rl, hrl⟩ : ∃ rl, classifyLine isJava
      ((sortImports (scanFile isJava lines).imports).getLast hbne ++ "\n") =
      LK.imp rl ((sortImports (scanFile isJava lines).imports).getLast hbne)
        (rl.2.1.data.contains '*') := by
    rcases hblockm _ (List.getLast_mem hbne) with he | ⟨rl, hcl, _⟩
    · exact absurd he hglne
    · exact ⟨rl, hcl⟩
  have hBlen : 1 ≤ (sortImports (scanFile isJava lines).imports).length := by
    rw [hbcons]
    simp
  have hPfacts : ∀ l ∈ (presOf isJava lines).1,
      classifyLine isJava l = LK.skip := fun l hl =>
    comment_classify_skip isJava l (presGo_preserved_mem _ _ l hl).2.1
  have hpresD := presD_cases isJava lines
  have hDim : ∀ l ∈ lines.drop (presOf isJava lines).2,
      ∀ r s b, classifyLine isJava l ≠ LK.imp r s b :=
    body_no_imp isJava lines _ himp hpresD.1
  have hmid := mid_scan isJava (sortImports (scanFile isJava lines).imports)
    (presOf isJava lines).1 (lines.drop (presOf isJava lines).2) A0.length
    hblockm hPfacts hDim hDpkg
  have hsegpairs : segPairs isJava 0 OUT =
      segPairs isJava A0.length
        ((sortImports (scanFile isJava lines).imports).map (· ++ "\n")) := by
    rw [hOUT, segPairs_append, hA0pairs, List.nil_append, Nat.zero_add]
    exact hmid.1
  have hsegpkg : segPkg isJava 0 OUT = segPkg isJava 0 A0 := by
    rw [hOUT, segPkg_append, Nat.zero_add, hmid.2]
  have himports_out : (scanFile isJava OUT).imports =
      (sortImports (scanFile isJava lines).imports).filterMap (recOfLine isJava) := by
    rw [scanFile_imports_eq, hsegpairs, segPairs_map_block isJava _ hblockm]
  have hpermI : ((scanFile isJava OUT).imports).Perm
      (scanFile isJava lines).imports := by
    rw [himports_out]
    exact block_filterMap_perm isJava _ hNEr (recOfLine_of_record isJava lines)
  have himp2 : (scanFile isJava OUT).imports ≠ [] := by
    intro hc
    rw [hc] at hpermI
    exact himp hpermI.symm.eq_nil
  have hsort : sortImports (scanFile isJava OUT).imports =
      sortImports (scanFile isJava lines).imports := sortImports_perm _ _ hpermI
  have hhead : (scanFile isJava OUT).importLines.headD 0 = A0.length := by
    rw [scanFile_importLines_eq, hsegpairs, hbcons,
      segPairs_block_head isJava s0 bs r0 hr0]
    rfl
  have hlast : lastIdx isJava OUT =
      A0.length + (sortImports (scanFile isJava lines).imports).length - 1 := by
    unfold lastIdx
    rw [scanFile_importLines_eq, hsegpairs, List.getLastD_eq_getLast?,
      List.getLast?_map, segPairs_block_last isJava _ hbne rl hrl A0.length]
    rfl
  have hassoc2 : OUT =
      (A0 ++ (sortImports (scanFile isJava lines).imports).map (· ++ "\n")) ++
        (((presOf isJava lines).1 ++ ["\n"]) ++
          lines.drop (presOf isJava lines).2) := by
    rw [hOUT]
    simp [List.append_assoc]
  have hdrop1 : OUT.drop (lastIdx isJava OUT + 1) =
      ((presOf isJava lines).1 ++ ["\n"]) ++
        lines.drop (presOf isJava lines).2 := by
    rw [hlast]
    conv_lhs => rw [hassoc2]
    apply drop_append_exact
    rw [List.length_append, List.length_map]
    omega
  have hpres : presOf isJava OUT = ((presOf isJava lines).1,
      lastIdx isJava OUT + 1 + (presOf isJava lines).1.length + 1) := by
    show presGo (OUT.drop (lastIdx isJava OUT + 1)) (lastIdx isJava OUT + 1) = _
    rw [hdrop1]
    have hasc3 : ((presOf isJava lines).1 ++ ["\n"]) ++
        lines.drop (presOf isJava lines).2 =
        (presOf isJava lines).1 ++ ("\n" :: lines.drop (presOf isJava lines).2) := by
      simp
    rw [hasc3, presGo_comments_prepend (presOf isJava lines).1
      ("\n" :: lines.drop (presOf isJava lines).2) (lastIdx isJava OUT + 1)
      (fun l hl => ⟨(presGo_preserved_mem _ _ l hl).1,
        (presGo_preserved_mem _ _ l hl).2.1⟩)]
    rw [presGo_cons_blank _ _ _ (by decide)]
    rcases hpresD.2 with hD0 | ⟨l0, t0, hDcons, hl0a, hl0b⟩
    · rw [hD0]
      simp [presGo]
    · rw [hDcons, presGo_cons_break l0 t0 _ ⟨hl0a, hl0b⟩]
      simp
  have htake : OUT.take A0.length = A0 := by
    conv_lhs => rw [hOUT]
    exact take_append_exact _ _ _ rfl
  have hdrop2 : OUT.drop (presOf isJava OUT).2 =
      lines.drop (presOf isJava lines).2 := by
    have hp2 : (presOf isJava OUT).2 =
        lastIdx isJava OUT + 1 + (presOf isJava lines).1.length + 1 := by
      rw [hpres]
    rw [hp2, hlast]
    have hassoc3 : OUT =
        (A0 ++ ((sortImports (scanFile isJava lines).imports).map (· ++ "\n") ++
          ((presOf isJava lines).1 ++ ["\n"]))) ++
          lines.drop (presOf isJava lines).2 := by
      rw [hOUT]
      simp [List.append_assoc]
    conv_lhs => rw [hassoc3]
    apply drop_append_exact
    simp only [List.length_append, List.length_map, List.length_singleton]
    omega
  exact ⟨himp2, hsort, hsegpkg, hhead, hlast, hpres, htake, hdrop2⟩

/-- `process_file`'s rewrite is a fixed point of itself whenever a package
declaration, if present, precedes the first import: running the transform
on its own output rewrites the file with identical content. -/
theorem transform_fixpoint (isJava : Bool) (lines : List String)
    (himp : (scanFile isJava lines).imports ≠ [])
    (hPkgOK : (scanFile isJava lines).packageIdx = -1 ∨
      (scanFile isJava lines).packageIdx < (firstIdx isJava lines : Int)) :
    ∀ out, transform isJava lines = some out → transform isJava out = some out := by
  intro out hout
  by_cases hpkg : (scanFile isJava lines).packageIdx ≠ -1
  · rw [transform_eq_pkg isJava lines himp hpkg] at hout
    injection hout with hX
    subst hX
    have hk0 := scanFile_pkg_lt isJava lines hpkg
    have hsegpkgL : segPkg isJava 0 lines =
        some ((scanFile isJava lines).packageIdx.toNat) := by
      cases hc : segPkg isJava 0 lines with
      | none =>
        exfalso
        apply hpkg
        rw [scanFile_packageIdx_eq, hc]
      | some k2 =>
        have h2 : (scanFile isJava lines).packageIdx = (k2 : Int) := by
          rw [scanFile_packageIdx_eq, hc]
        rw [h2]
        simp
    have hkfirst : (scanFile isJava lines).packageIdx.toNat <
        firstIdx isJava lines := by
      rcases hPkgOK with h | h
      · exact absurd h hpkg
      · omega
    have hfle := firstIdx_le_lastIdx isJava lines himp
    have hpresD := presD_cases isJava lines
    have hDpkg : ∀ l ∈ lines.drop (presOf isJava lines).2,
        classifyLine isJava l ≠ LK.pkg := by
      apply body_no_pkg isJava lines (presOf isJava lines).2
        ((scanFile isJava lines).packageIdx.toNat) hsegpkgL
      omega
    have hAlen : (lines.take ((scanFile isJava lines).packageIdx.toNat + 1)).length =
        (scanFile isJava lines).packageIdx.toNat + 1 := by
      rw [List.length_take]
      omega
    have hA0pairs : segPairs isJava 0
        (lines.take ((scanFile isJava lines).packageIdx.toNat + 1) ++ ["\n"]) = [] := by
      rw [segPairs_append, prefix_segPairs_nil isJava lines _ himp (by omega),
        List.nil_append,
        segPairs_cons_skip isJava "\n" [] _ (classifyLine_newline isJava)]
      rfl
    have hOUTeq : outPkg isJava lines =
        (lines.take ((scanFile isJava lines).packageIdx.toNat + 1) ++ ["\n"]) ++
          ((sortImports (scanFile isJava lines).imports).map (· ++ "\n") ++
            (((presOf isJava lines).1 ++ ["\n"]) ++
              lines.drop (presOf isJava lines).2)) := by
      unfold outPkg
      simp [List.append_assoc]
    obtain ⟨himp2, hsort, hsegpkgO, hheadO, hlastO, hpresO, htakeO, hdropO⟩ :=
      reassembled_scan_facts isJava lines
        (lines.take ((scanFile isJava lines).packageIdx.toNat + 1) ++ ["\n"])
        (outPkg isJava lines) himp hOUTeq hA0pairs hDpkg
    have hsegpkgA0 : segPkg isJava 0
        (lines.take ((scanFile isJava lines).packageIdx.toNat + 1) ++ ["\n"]) =
        some ((scanFile isJava lines).packageIdx.toNat) := by
      rw [segPkg_append,
        segPkg_cons_skip isJava "\n" [] _ (classifyLine_newline isJava)]
      show (match (none : Option Nat) with
        | some k => some k
        | none => segPkg isJava 0
            (lines.take ((scanFile isJava lines).packageIdx.toNat + 1))) = _
      exact prefix_segPkg_eq isJava lines _ hsegpkgL (by omega)
    have hpkgO : (scanFile isJava (outPkg isJava lines)).packageIdx =
        ((scanFile isJava lines).packageIdx.toNat : Int) := by
      rw [scanFile_packageIdx_eq, hsegpkgO, hsegpkgA0]
    have hpkgO_ne : (scanFile isJava (outPkg isJava lines)).packageIdx ≠ -1 := by
      rw [hpkgO]
      omega
    rw [transform_eq isJava (outPkg isJava lines) himp2, if_pos hpkgO_ne]
    congr 1
    have htoNat : (scanFile isJava (outPkg isJava lines)).packageIdx.toNat =
        (scanFile isJava lines).packageIdx.toNat := by
      rw [hpkgO]
      omega
    have hOUT2 : outPkg isJava lines =
        lines.take ((scanFile isJava lines).packageIdx.toNat + 1) ++
          ("\n" :: ((sortImports (scanFile isJava lines).imports).map (· ++ "\n") ++
            (((presOf isJava lines).1 ++ ["\n"]) ++
              lines.drop (presOf isJava lines).2))) := by
      unfold outPkg
      simp [List.append_assoc]
    have htake2 : (outPkg isJava lines).take
        ((scanFile isJava lines).packageIdx.toNat + 1) =
        lines.take ((scanFile isJava lines).packageIdx.toNat + 1) := by
      conv_lhs => rw [hOUT2]
      exact take_append_exact _ _ _ hAlen
    have hp1 : (presOf isJava (outPkg isJava lines)).1 = (presOf isJava lines).1 := by
      rw [hpresO]
    rw [htoNat, htake2, hsort, hdropO, hp1]
    rfl
  · have hpkgeq : (scanFile isJava lines).packageIdx = -1 := not_not.mp hpkg
    rw [transform_eq_nopkg isJava lines himp hpkgeq] at hout
    injection hout with hX
    subst hX
    have hsegpkgL : segPkg isJava 0 lines = none := by
      cases hc : segPkg isJava 0 lines with
      | none => rfl
      | some k2 =>
        exfalso
        rw [scanFile_packageIdx_eq, hc] at hpkgeq
        have h2 : ((k2 : Nat) : Int) = -1 := hpkgeq
        omega
    have hDpkg := body_no_pkg_of_none isJava lines (presOf isJava lines).2 hsegpkgL
    have hfirstlt := scanFile_first_lt isJava lines himp
    have hfirsteq : firstIdx isJava lines =
        (scanFile isJava lines).importLines.headD 0 := rfl
    have hAlen : (lines.take (firstIdx isJava lines)).length =
        firstIdx isJava lines := by
      rw [List.length_take]
      omega
    have hA0pairs : segPairs isJava 0 (lines.take (firstIdx isJava lines)) = [] :=
      prefix_segPairs_nil isJava lines _ himp (le_refl _)
    have hOUTeq : outNoPkg isJava lines =
        lines.take (firstIdx isJava lines) ++
          ((sortImports (scanFile isJava lines).imports).map (· ++ "\n") ++
            (((presOf isJava lines).1 ++ ["\n"]) ++
              lines.drop (presOf isJava lines).2)) := by
      unfold outNoPkg
      simp [List.append_assoc]
    obtain ⟨himp2, hsort, hsegpkgO, hheadO, hlastO, hpresO, htakeO, hdropO⟩ :=
      reassembled_scan_facts isJava lines (lines.take (firstIdx isJava lines))
        (outNoPkg isJava lines) himp hOUTeq hA0pairs hDpkg
    have hsegpkgA0 : segPkg isJava 0 (lines.take (firstIdx isJava lines)) = none :=
      prefix_segPkg_none isJava lines _ hsegpkgL
    have hpkgO : (scanFile isJava (outNoPkg isJava lines)).packageIdx = -1 := by
      rw [scanFile_packageIdx_eq, hsegpkgO, hsegpkgA0]
    rw [transform_eq isJava (outNoPkg isJava lines) himp2,
      if_neg (by rw [hpkgO]; exact fun h => h rfl)]
    congr 1
    have hfirstO : firstIdx isJava (outNoPkg isJava lines) =
        firstIdx isJava lines := by
      unfold firstIdx
      rw [hheadO, hAlen]
      exact hfirsteq
    have htake2 : (outNoPkg isJava lines).take (firstIdx isJava lines) =
        lines.take (firstIdx isJava lines) := by
      rw [hAlen] at htakeO
      exact htakeO
    have hp1 : (presOf isJava (outNoPkg isJava lines)).1 =
        (presOf isJava lines).1 := by
      rw [hpresO]
    rw [hfirstO, htake2, hsort, hdropO, hp1]
    rfl

/-- C9 (amended): the transformation is idempotent on every file whose
content is newline-terminated (or empty) and whose package declaration,
if one is present, precedes the first import: applying `process_file`'s
read-transform-write cycle to its own output produces byte-identical
content.  (The counterexample shows both restrictions are needed: a
package-matching line occurring after the first import makes the second
run reassemble the file differently.) -/
theorem claim9_idempotent (isJava : Bool) (content : String)
    (hNL : content.data = [] ∨ content.data.getLast? = some '\n')
    (hPkg : (scanFile isJava (pyReadlines content)).packageIdx = -1 ∨
      (scanFile isJava (pyReadlines content)).packageIdx <
        (firstIdx isJava (pyReadlines content) : Int)) :
    runContent isJava (runContent isJava content) = runContent isJava content := by
  by_cases himp : (scanFile isJava (pyReadlines content)).imports = []
  · have ht : transform isJava (pyReadlines content) = none := by
      simp [transform, himp]
    have hrc : runContent isJava content = content := by
      unfold runContent
      rw [ht]
    rw [hrc]
    exact hrc
  · obtain ⟨out, hout⟩ : ∃ out, transform isJava (pyReadlines content) = some out := by
      by_cases hp : (scanFile isJava (pyReadlines content)).packageIdx ≠ -1
      · exact ⟨_, transform_eq_pkg isJava _ himp hp⟩
      · exact ⟨_, transform_eq_nopkg isJava _ himp (not_not.mp hp)⟩
    have hrun1 : runContent isJava content = String.join out := by
      unfold runContent
      rw [hout]
    have hWFin := pyReadlines_WF content hNL
    have hWFout := transform_WF isJava _ hWFin out hout
    have hreadback : pyReadlines (String.join out) = out :=
      pyReadlines_join_inv out hWFout
    have hfix := transform_fixpoint isJava _ himp hPkg out hout
    rw [hrun1]
    unfold runContent
    rw [hreadback, hfix]

/-- C9 (counterexample): the transformation is not idempotent in general.
In a Kotlin file whose text matches the package pattern on a line after
the first import (`import b.a`, `class X`, `package p;`), the first run
moves the import block after the package line, and the second run moves
it again, so the second run changes the bytes a first run produced. -/
theorem claim9_counterexample :
    runContent false (runContent false "import b.a\nclass X\npackage p;\n") ≠
      runContent false "import b.a\nclass X\npackage p;\n" := by
  decide

/-- Witness for C9: a well-formed Java-style file — newline-terminated,
package declaration first — on which the amended idempotence theorem
applies with all hypotheses discharged. -/
theorem claim9_idempotent_witness :
    ((("package p;\n\nimport org.b\nimport android.a\n\n// c\n\nclass X\n" : String).data = [] ∨
      ("package p;\n\nimport org.b\nimport android.a\n\n// c\n\nclass X\n" : String).data.getLast? = some '\n') ∧
     ((scanFile false (pyReadlines "package p;\n\nimport org.b\nimport android.a\n\n// c\n\nclass X\n")).packageIdx = -1 ∨
      (scanFile false (pyReadlines "package p;\n\nimport org.b\nimport android.a\n\n// c\n\nclass X\n")).packageIdx <
        (firstIdx false (pyReadlines "package p;\n\nimport org.b\nimport android.a\n\n// c\n\nclass X\n") : Int)) ∧
     runContent false (runContent false "package p;\n\nimport org.b\nimport android.a\n\n// c\n\nclass X\n") =
       runContent false "package p;\n\nimport org.b\nimport android.a\n\n// c\n\nclass X\n") :=
  ⟨by decide, by decide,
    claim9_idempotent false "package p;\n\nimport org.b\nimport android.a\n\n// c\n\nclass X\n"
      (by decide) (by decide)⟩

end OrganizeImports
